import Mathlib

/-!
# Verification of the CyberEther compute scheduler

A shallow embedding of the Jetstream compute scheduler
(source: src/unnamed/part_003, the implementation of Jetstream::Scheduler)
together with proofs about its rebuild pipeline:

* removeInactive      — pruning of unconnected ports and stale modules;
* arrangeDependencyOrder — Kahn topological ordering with device affinity,
  cluster assignment and the split into device execution runs;
* createExecutionGraphs — executor assembly and externally-wired chaining;
* compute             — result translation of one compute pass;
* addModule / removeModule — the mutation surface.

Modelling conventions.
C++ maps keyed by strings (computeModuleStates, presentModuleStates, the
valid maps, RecordMap, the active sets) are modelled as association lists
List (String x _); hash-map iteration order, where observable, is either
irrelevant to the claims or universally quantified through an explicit
iteration-order oracle for the ready set of the ordering loop.
64-bit unsigned counters are modelled as Nat with explicit wrap-around
modulo 2^64 where the source can underflow (the pre-decrement of the
degree counters).  Record fields used only for logging (dataType, shape,
data pointer) are omitted: the scheduler reads only meta.hash,
meta.locale.hash() and the module device.
-/

namespace Jetstream

/-- Modelled from the spec: the Device tag enum, declared in
jetstream/types.hh which is not part of the sources at hand.  The spec
gives the tag set {CPU, CUDA, Metal, Vulkan, None}; the scheduler source
applies bitwise & to tags ((currentDevice & lastDevice) != lastDevice), so
tags are encoded as distinct single-bit flags, None included. -/
inductive Device where
  | none
  | cpu
  | cuda
  | metal
  | vulkan
deriving DecidableEq, Repr

/-- Single-bit encoding of a device tag, used by the source's bitwise &. -/
def Device.bits : Device → Nat
  | Device.none => 1
  | Device.cpu => 2
  | Device.cuda => 4
  | Device.metal => 8
  | Device.vulkan => 16

/-- The source's (a & b) on device tags, as the underlying bit pattern. -/
def Device.dand (a b : Device) : Nat := a.bits &&& b.bits

/-- Modelled from the spec: the Result taxonomy shared across the
interface (jetstream/types.hh is not among the sources).  The numeric
values are never inspected by the scheduler, only compared. -/
inductive Result where
  | SUCCESS
  | TIMEOUT
  | SKIP
  | ERROR
  | FATAL
deriving DecidableEq, Repr

/-- The two fields of a Parser::Record that the scheduler reads: the
64-bit content hash (meta.hash) and the locale hash (meta.locale.hash()).
Hashes are modelled as Nat; hash = 0 is the unset record, which the
source's counting loop skips (if (meta.hash)). -/
structure Record where
  hash : Nat
  localeHash : Nat
deriving DecidableEq, Repr

/-- Compute-side module state (the ComputeModuleState entry of
computeModuleStates).  The shared_ptr to the Compute callback is opaque to
the scheduler's graph logic and is not modelled. -/
structure ComputeModuleState where
  device : Device
  inputMap : List (String × Record)
  outputMap : List (String × Record)
  activeInputs : List (String × Record)
  activeOutputs : List (String × Record)
  clusterId : Nat
deriving DecidableEq, Repr

/-- Present-side module state (the PresentModuleState entry); the Present
callback handle is opaque and not modelled. -/
structure PresentModuleState where
  inputMap : List (String × Record)
  outputMap : List (String × Record)
deriving DecidableEq, Repr

/-- Modelled from the spec: the per-device Graph executor interface
(jetstream/compute/graph/base.hh is not among the sources).  Only the
bookkeeping the scheduler drives is kept: the wired and externally-wired
locale-hash sets, the device, and a created lifecycle flag
(create()/destroy()).  setModule only appends an opaque handle and is not
modelled. -/
structure Graph where
  device : Device
  wiredInputs : List Nat
  wiredOutputs : List Nat
  externallyWiredInputs : List Nat
  externallyWiredOutputs : List Nat
  created : Bool
deriving DecidableEq, Repr

/-- The scheduler's mutable state (the data members of Jetstream::Scheduler
that the rebuild pipeline reads and writes). -/
structure SchedulerState where
  running : Bool
  computeModuleStates : List (String × ComputeModuleState)
  presentModuleStates : List (String × PresentModuleState)
  validComputeModuleStates : List (String × ComputeModuleState)
  validPresentModuleStates : List (String × PresentModuleState)
  executionOrder : List String
  deviceExecutionOrder : List (Device × List String)
  graphs : List Graph
deriving DecidableEq, Repr

/-- First-match association-list lookup (map operator[] read / find). -/
def alookup {α : Type} : List (String × α) → String → Option α
  | [], _ => Option.none
  | (k, v) :: rest, key => if k = key then some v else alookup rest key

/-- Map assignment m[k] = v: update the first binding of k in place, or
append a fresh binding (iteration position of an existing key is kept, as
for the C++ node-based maps). -/
def aInsert {α : Type} : List (String × α) → String → α → List (String × α)
  | [], key, v => [(key, v)]
  | (k, w) :: rest, key, v =>
      if k = key then (k, v) :: rest else (k, w) :: aInsert rest key v

/-- The default-constructed ComputeModuleState produced by map operator[]
on a missing key. -/
def defCMS : ComputeModuleState :=
  { device := Device.none, inputMap := [], outputMap := [],
    activeInputs := [], activeOutputs := [], clusterId := 0 }

/-- validComputeModuleStates[name] read during the ordering phases. -/
def stateOf (sts : List (String × ComputeModuleState)) (n : String) :
    ComputeModuleState :=
  (alookup sts n).getD defCMS

/-! ## Phase 1 — removeInactive (pruning) -/

/-- The hash-occurrence counter built by removeInactive's first loop: every
input and output record of every compute module increments valid[hash],
except records with hash 0 (the if (meta.hash) guard). -/
def hashCount (cms : List (String × ComputeModuleState)) (h : Nat) : Nat :=
  (cms.flatMap (fun p => p.2.inputMap ++ p.2.outputMap)).countP
    (fun q => decide (q.2.hash ≠ 0 ∧ q.2.hash = h))

/-- The source's activation test valid[meta.hash] > 1 (an uncounted hash,
in particular hash 0, reads as 0). -/
def activeCond (cms : List (String × ComputeModuleState)) (r : Record) :
    Bool :=
  decide (1 < hashCount cms r.hash)

/-- A guarded assignment sweep over a map: every entry satisfying the
condition is written into the accumulator map. -/
def condFold {β : Type} (c : String × β → Bool) (acc : List (String × β))
    (l : List (String × β)) : List (String × β) :=
  l.foldl (fun acc q => if c q then aInsert acc q.1 q.2 else acc) acc

/-- One pass of the activation loop over a RecordMap: each port whose hash
count exceeds 1 is written into the active map (the map is never cleared,
matching the source, which only ever assigns into activeInputs /
activeOutputs). -/
def updActive (cms : List (String × ComputeModuleState))
    (acc : List (String × Record)) (m : List (String × Record)) :
    List (String × Record) :=
  condFold (fun q => activeCond cms q.2) acc m

/-- The activation pass on one module entry of computeModuleStates. -/
def activateModule (cms : List (String × ComputeModuleState))
    (p : String × ComputeModuleState) : String × ComputeModuleState :=
  (p.1, { p.2 with
          activeInputs := updActive cms p.2.activeInputs p.2.inputMap,
          activeOutputs := updActive cms p.2.activeOutputs p.2.outputMap })

/-- computeModuleStates after the activation loops of removeInactive. -/
def activatedCMS (s : SchedulerState) : List (String × ComputeModuleState) :=
  s.computeModuleStates.map (activateModule s.computeModuleStates)

/-- The stale test: a name is stale when its compute entry has both
active sets empty (a name with no compute entry is never stale, matching
the staleModules set, which only collects compute-module names). -/
def staleB (cms' : List (String × ComputeModuleState)) (n : String) : Bool :=
  match alookup cms' n with
  | some st => st.activeInputs.isEmpty && st.activeOutputs.isEmpty
  | Option.none => false

/-- Scheduler::removeInactive: count hash occurrences, promote connected
ports to active, and rebuild the valid maps excluding stale modules (both
active sets empty).  Present modules are excluded by name against the
stale set computed from the compute modules. -/
def removeInactive (s : SchedulerState) : SchedulerState :=
  { s with
    computeModuleStates := activatedCMS s,
    validComputeModuleStates :=
      (activatedCMS s).filter (fun p => !staleB (activatedCMS s) p.1),
    validPresentModuleStates :=
      s.presentModuleStates.filter (fun p => !staleB (activatedCMS s) p.1) }

/-! ## Phase 2 — arrangeDependencyOrder: the primitive ordering loop

The C++ loop iterates an unordered_set (the ready queue) whose iteration
order is unspecified.  The model threads an explicit oracle
(step index → queue → claimed iteration order); an oracle value that is
not a permutation of the queue is replaced by the queue itself, so every
run of the model is a run of the source for some hash order and vice
versa. -/

/-- The key list of a module-state map. -/
def names (sts : List (String × ComputeModuleState)) : List String :=
  sts.map Prod.fst

/-- The module device read by the selection loop
(validComputeModuleStates[name].device; a missing key default-constructs,
giving the all-zero tag, modelled as Device.none — never reached because
the queue only holds valid names). -/
def devOf (sts : List (String × ComputeModuleState)) (n : String) : Device :=
  (stateOf sts n).device

/-- moduleInputCache[L]: one entry per active input with locale hash L,
in module-map iteration order — the names of the consumers of L. -/
def inputConsumers (sts : List (String × ComputeModuleState)) (L : Nat) :
    List String :=
  sts.flatMap (fun p =>
    p.2.activeInputs.filterMap (fun q =>
      if q.2.localeHash = L then some p.1 else Option.none))

/-- The active-output locale hashes of one module. -/
def outLocHashes (st : ComputeModuleState) : List Nat :=
  st.activeOutputs.map (fun q => q.2.localeHash)

/-- The initial in-degree of a module: its number of active inputs. -/
def d0 (sts : List (String × ComputeModuleState)) (n : String) : Nat :=
  (stateOf sts n).activeInputs.length

/-- 2^64, the modulus of the U64 degree counters. -/
def u64 : Nat := 18446744073709551616

/-- The U64 pre-decrement --degrees[m]: exact minus one below the wrap,
0 wraps to 2^64 - 1. -/
def u64dec (v : Nat) : Nat := (v + (u64 - 1)) % u64

/-- The inner selection scan of the ordering loop: walk the ready set in
the given order carrying lastDevice; a None lastDevice adopts the device
of the element under scan; the first element matching lastDevice is
selected together with the adopted device. -/
def pickFrom (sts : List (String × ComputeModuleState)) :
    List String → Device → Option (String × Device)
  | [], _ => Option.none
  | n :: rest, last =>
      let d := devOf sts n
      let last1 := if last = Device.none then d else last
      if d = last1 then some (n, d) else pickFrom sts rest last1

/-- State of the primitive ordering loop. -/
structure KahnState where
  queue : List String
  degrees : String → Nat
  exec : List String
  last : Device

/-- One decrement --degrees[m] with its hit-zero enqueue
(set emplace: append only if absent). -/
def hitOne (dq : (String → Nat) × List String) (m : String) :
    (String → Nat) × List String :=
  let d1 := u64dec (dq.1 m)
  ( fun k => if k = m then d1 else dq.1 k,
    if d1 = 0 then (if m ∈ dq.2 then dq.2 else dq.2 ++ [m]) else dq.2 )

/-- The relaxation after emitting x: for every active output of x, every
consumer of that output's locale hash has its degree decremented, entering
the ready set when it reaches zero. -/
def relax (sts : List (String × ComputeModuleState)) (x : String)
    (ks : KahnState) : KahnState :=
  match alookup sts x with
  | Option.none => ks
  | some st =>
      let dq := st.activeOutputs.foldl
        (fun dq o => (inputConsumers sts o.2.localeHash).foldl hitOne dq)
        (ks.degrees, ks.queue)
      { ks with degrees := dq.1, queue := dq.2 }

/-- The iteration order of one unordered_set scan: the oracle's claim for
this step, falling back to the queue itself when the claim is not a
permutation of the queue (so the model ranges exactly over the set
iteration orders the source can exhibit). -/
def effOrder (oracle : Nat → List String → List String) (stepIdx : Nat)
    (queue : List String) : List String :=
  let o0 := oracle stepIdx queue
  if o0.Perm queue then o0 else queue

/-- One iteration of the while loop (with the at-most-one device reset
folded in: when no ready module matches lastDevice the source resets
lastDevice to None and rescans, which then always selects the scan's first
element).  Returns none when the queue is empty (loop exit). -/
def kahnStep (sts : List (String × ComputeModuleState))
    (oracle : Nat → List String → List String) (stepIdx : Nat)
    (ks : KahnState) : Option KahnState :=
  match ks.queue with
  | [] => Option.none
  | _ :: _ =>
      let order := effOrder oracle stepIdx ks.queue
      let pick :=
        match pickFrom sts order ks.last with
        | some p => some p
        | Option.none => pickFrom sts order Device.none
      match pick with
      | Option.none => Option.none
      | some (x, d) =>
          some (relax sts x
            { ks with queue := ks.queue.erase x,
                      exec := ks.exec ++ [x],
                      last := d })

/-- The while loop.  Fuel bounds the iteration count; N + 1 iterations
suffice for every run in which no degree counter wraps back around to
zero (re-entering the ready set needs 2^64 - 1 further decrements, beyond
any input of machine-representable size). -/
def kahnLoop (sts : List (String × ComputeModuleState))
    (oracle : Nat → List String → List String) :
    Nat → Nat → KahnState → KahnState
  | 0, _, ks => ks
  | fuel + 1, stepIdx, ks =>
      match kahnStep sts oracle stepIdx ks with
      | Option.none => ks
      | some ks1 => kahnLoop sts oracle fuel (stepIdx + 1) ks1

/-- The seeding of degrees and the ready queue from the valid module map
(queue holds the modules with zero active inputs, in map order; the oracle
re-orders every scan, so the seed order is immaterial). -/
def seedState (sts : List (String × ComputeModuleState)) : KahnState :=
  { queue := (sts.filter (fun p => p.2.activeInputs.length = 0)).map Prod.fst,
    degrees := fun n => d0 sts n,
    exec := [],
    last := Device.none }

/-- The complete primitive ordering loop of arrangeDependencyOrder. -/
def runKahn (sts : List (String × ComputeModuleState))
    (oracle : Nat → List String → List String) : KahnState :=
  kahnLoop sts oracle (sts.length + 1) 0 (seedState sts)

/-! ## Phase 3 — cluster assignment (weakly-connected components) -/

/-- Append to a set-like list (unordered_set insert). -/
def setInsert (l : List String) (x : String) : List String :=
  if x ∈ l then l else l ++ [x]

/-- moduleOutputCache[L]: the producing module of locale hash L; later
map-iteration writers overwrite earlier ones, and a missing key
default-constructs to the empty string. -/
def outputProducer (sts : List (String × ComputeModuleState)) (L : Nat) :
    String :=
  match sts.reverse.find? (fun p => decide (L ∈ outLocHashes p.2)) with
  | some p => p.1
  | Option.none => ""

/-- moduleEdgesCache[n]: neighbors via either direction; inputs first
(the producer of each active input), then the consumers of each active
output. -/
def moduleEdges (sts : List (String × ComputeModuleState)) (n : String) :
    List String :=
  let st := stateOf sts n
  let e1 := st.activeInputs.foldl
    (fun e q => setInsert e (outputProducer sts q.2.localeHash)) []
  st.activeOutputs.foldl
    (fun e q => (inputConsumers sts q.2.localeHash).foldl setInsert e) e1

/-- The stack walk of one component: pop, push unvisited neighbors, then
visit the popped node if new.  Fuel-bounded (the source's loop terminates
on every machine-sized input; no claim depends on cluster values, and the
fuel below covers every input whose total stack traffic fits it). -/
def dfsLoop (edges : String → List String) :
    Nat → List String → List String → List String
  | 0, _, visited => visited
  | _ + 1, [], visited => visited
  | fuel + 1, cur :: stackRest, visited =>
      let stack1 := (edges cur).foldl
        (fun st nb => if nb ∈ visited then st else nb :: st) stackRest
      let visited1 := if cur ∈ visited then visited else visited ++ [cur]
      dfsLoop edges fuel stack1 visited1

/-- Fuel for one component walk. -/
def dfsFuel (sts : List (String × ComputeModuleState)) : Nat :=
  (sts.length + 1) * (sts.length + 1) *
    ((sts.flatMap (fun p => p.2.activeInputs ++ p.2.activeOutputs)).length + 2)

/-- Cluster assignment: walk the module map; every module not yet visited
roots a depth-first stack walk, and all modules first visited during that
walk receive the current cluster counter. -/
def assignClusters (sts : List (String × ComputeModuleState)) :
    List (String × ComputeModuleState) :=
  let step := fun (acc : List String × List (String × Nat) × Nat) (n : String) =>
    let (visited, cmap, ccount) := acc
    if n ∈ visited then acc
    else
      let visited1 := dfsLoop (moduleEdges sts) (dfsFuel sts) [n] visited
      let newly := visited1.drop visited.length
      (visited1, cmap ++ newly.map (fun m => (m, ccount)), ccount + 1)
  let cmap := ((names sts).foldl step ([], [], 0)).2.1
  sts.map (fun p =>
    (p.1, { p.2 with clusterId := ((cmap.lookup p.1).getD p.2.clusterId) }))

/-! ## Phase 4 — split into device execution runs -/

/-- Append a module name to the trailing (device, run) entry;
the source's back() on an empty vector is undefined behaviour and is
modelled as a no-op (unreachable whenever the first module's device is
not None — see the device-run theorems). -/
def appendLast : List (Device × List String) → String →
    List (Device × List String)
  | [], _ => []
  | [(d, run)], n => [(d, run ++ [n])]
  | e :: e1 :: rest, n => e :: appendLast (e1 :: rest) n

/-- The walk over executionOrder: a new (device, []) entry is pushed when
(currentDevice & lastDevice) != lastDevice or the cluster id changed; the
module is then appended to the trailing entry. -/
def deviceSplitGo (sts : List (String × ComputeModuleState))
    (acc : List (Device × List String)) (lastD : Device) (lastC : Nat) :
    List String → List (Device × List String)
  | [] => acc
  | n :: rest =>
      let st := stateOf sts n
      let acc1 :=
        if Device.dand st.device lastD ≠ lastD.bits ∨ st.clusterId ≠ lastC
        then acc ++ [(st.device, [])] else acc
      deviceSplitGo sts (appendLast acc1 n) st.device st.clusterId rest

/-- deviceExecutionOrder as computed from executionOrder
(lastDevice starts at None, lastCluster at 0). -/
def deviceSplit (sts : List (String × ComputeModuleState))
    (exec : List String) : List (Device × List String) :=
  deviceSplitGo sts [] Device.none 0 exec

/-! ## arrangeDependencyOrder assembled -/

/-- Scheduler::arrangeDependencyOrder: clear the orders, run the primitive
ordering loop, fail with the cycle check when its output misses modules,
otherwise assign clusters and split into device runs. -/
def arrangeDependencyOrder (oracle : Nat → List String → List String)
    (s : SchedulerState) : SchedulerState × Result :=
  if (runKahn s.validComputeModuleStates oracle).exec.length ≠
      s.validComputeModuleStates.length then
    ({ s with
        executionOrder := (runKahn s.validComputeModuleStates oracle).exec,
        deviceExecutionOrder := [] },
     Result.FATAL)
  else
    ({ s with
        executionOrder := (runKahn s.validComputeModuleStates oracle).exec,
        validComputeModuleStates :=
          assignClusters s.validComputeModuleStates,
        deviceExecutionOrder :=
          deviceSplit (assignClusters s.validComputeModuleStates)
            (runKahn s.validComputeModuleStates oracle).exec },
     Result.SUCCESS)

/-- Scheduler::checkSequenceValidity: the in-place aliasing check only
emits a warning in the source (its return Result::ERROR is commented
out), so it never alters state and always reports success. -/
def checkSequenceValidity (_ : SchedulerState) : Result := Result.SUCCESS

/-! ## Executor assembly — createExecutionGraphs -/

/-- std::set insert on a locale-hash set (membership is all the claims
read; the sortedness of std::set is not observable through them). -/
def natSetInsert (l : List Nat) (x : Nat) : List Nat :=
  if x ∈ l then l else l ++ [x]

/-- NewGraph(device) followed by the wiring loop of one
(device, blocksNames) entry: every active input locale hash becomes a
wired input, every active output locale hash a wired output. -/
def buildGraph (sts : List (String × ComputeModuleState)) (d : Device)
    (ns : List String) : Graph :=
  ns.foldl (fun g n =>
    let st := stateOf sts n
    let g := st.activeInputs.foldl
      (fun g q => { g with wiredInputs := natSetInsert g.wiredInputs q.2.localeHash }) g
    st.activeOutputs.foldl
      (fun g q => { g with wiredOutputs := natSetInsert g.wiredOutputs q.2.localeHash }) g)
    { device := d, wiredInputs := [], wiredOutputs := [],
      externallyWiredInputs := [], externallyWiredOutputs := [],
      created := false }

/-- The commonItems of one chaining step: the intersection of the
previous wired outputs with the current wired inputs. -/
def chainCommon (prev g2 : Graph) : List Nat :=
  prev.wiredOutputs.filter (fun h => decide (h ∈ g2.wiredInputs))

/-- setExternallyWiredOutput(item) on the previous executor for every
common item. -/
def chainExtOut (prev g2 : Graph) : Graph :=
  { prev with externallyWiredOutputs :=
      (chainCommon prev g2).foldl natSetInsert prev.externallyWiredOutputs }

/-- setExternallyWiredInput(item) on the current executor for every
common item. -/
def chainExtIn (prev g2 : Graph) : Graph :=
  { g2 with externallyWiredInputs :=
      (chainCommon prev g2).foldl natSetInsert g2.externallyWiredInputs }

/-- One iteration of the dependency-list loop past the first executor.
The carried accumulator is (previousGraph, the already-scanned later
executors); the commonItems of previousGraph and the executor under scan
are registered as externally wired on both sides.  previousGraph is only
ever assigned inside the if (!previousGraph) branch of the source, so it
is NEVER advanced past the first executor. -/
def chainStep (acc : Graph × List Graph) (g2 : Graph) : Graph × List Graph :=
  (chainExtOut acc.1 g2, acc.2 ++ [chainExtIn acc.1 g2])

/-- The dependency-chaining loop: the first executor is adopted as
previousGraph on the first iteration and every later executor is
intersected against it (the source never reassigns previousGraph). -/
def chainGraphs : List Graph → List Graph
  | [] => []
  | g :: rest =>
      (rest.foldl chainStep (g, [])).1 :: (rest.foldl chainStep (g, [])).2

/-- Scheduler::createExecutionGraphs: instantiate one executor per device
run, wire it, then chain externally-wired ports of the first executor
against every later one. -/
def createExecutionGraphs (s : SchedulerState) : SchedulerState :=
  let gs := s.deviceExecutionOrder.map
    (fun e => buildGraph s.validComputeModuleStates e.1 e.2)
  { s with graphs := chainGraphs gs }

/-! ## The mutation surface -/

/-- graph->destroy() on every executor (lifecycle flag only; the executor
internals are outside the scheduler). -/
def destroyGraphs (s : SchedulerState) : SchedulerState :=
  { s with graphs := s.graphs.map (fun g => { g with created := false }) }

/-- graph->create() on every executor. -/
def createGraphs (s : SchedulerState) : SchedulerState :=
  { s with graphs := s.graphs.map (fun g => { g with created := true }) }

/-- The rebuild pipeline shared by addModule and removeModule (the body of
their lockState lambda after the map mutation): removeInactive,
arrangeDependencyOrder, checkSequenceValidity, createExecutionGraphs, then
graph->create() on each executor.  JST_CHECK short-circuits on the first
failure, leaving the partially-updated state. -/
def rebuild (oracle : Nat → List String → List String) (s : SchedulerState) :
    SchedulerState × Result :=
  match arrangeDependencyOrder oracle (removeInactive s) with
  | (s1, r) =>
      if r ≠ Result.SUCCESS then (s1, r)
      else if checkSequenceValidity s1 ≠ Result.SUCCESS then
        (s1, checkSequenceValidity s1)
      else (createGraphs (createExecutionGraphs s1), Result.SUCCESS)

/-- The arguments of addModule that reach the scheduler state: the module
device, the record maps, and which of the compute / present capabilities
are present. -/
structure ModuleIO where
  device : Device
  inputMap : List (String × Record)
  outputMap : List (String × Record)
  hasCompute : Bool
  hasPresent : Bool
deriving DecidableEq, Repr

/-- The state mutation of addModule before any rebuild phase: the running
flag is raised, the executors are destroyed, and the module's entries are
written into presentModuleStates / computeModuleStates
(operator[] keeps the active sets and cluster id of an existing entry;
a fresh entry default-constructs them empty). -/
def addModulePre (s : SchedulerState) (name : String) (m : ModuleIO) :
    SchedulerState :=
  let s := { s with running := true }
  let s := destroyGraphs s
  let ps : PresentModuleState :=
    { inputMap := m.inputMap, outputMap := m.outputMap }
  let s :=
    if m.hasPresent then
      { s with presentModuleStates := aInsert s.presentModuleStates name ps }
    else s
  if m.hasCompute then
    let old := (alookup s.computeModuleStates name).getD defCMS
    let cs : ComputeModuleState :=
      { old with device := m.device,
                 inputMap := m.inputMap, outputMap := m.outputMap }
    { s with computeModuleStates := aInsert s.computeModuleStates name cs }
  else s

/-- Scheduler::addModule: raise running, register the module, rebuild.
The lockState quiescence protocol itself is thread-interleaving behaviour
outside this embedding; its body is the function run here. -/
def addModule (oracle : Nat → List String → List String)
    (s : SchedulerState) (name : String) (m : ModuleIO) :
    SchedulerState × Result :=
  rebuild oracle (addModulePre s name m)

/-- The lockState body of removeModule: destroy executors, erase the
module from both maps, rebuild. -/
def removeModuleBody (oracle : Nat → List String → List String)
    (s : SchedulerState) (name : String) : SchedulerState × Result :=
  let s := destroyGraphs s
  let s := { s with
    presentModuleStates := s.presentModuleStates.filter (fun p => p.1 ≠ name),
    computeModuleStates := s.computeModuleStates.filter (fun p => p.1 ≠ name) }
  rebuild oracle s

/-- Scheduler::removeModule: a no-op returning success when the scheduler
is not running, the full rebuild otherwise. -/
def removeModule (oracle : Nat → List String → List String)
    (s : SchedulerState) (name : String) : SchedulerState × Result :=
  if s.running then removeModuleBody oracle s name else (s, Result.SUCCESS)

/-- Scheduler::destroy: stop execution and blank the internal memory. -/
def destroy (_s : SchedulerState) : SchedulerState :=
  { running := false,
    computeModuleStates := [], presentModuleStates := [],
    validComputeModuleStates := [], validPresentModuleStates := [],
    executionOrder := [], deviceExecutionOrder := [], graphs := [] }

/-! ## The compute pass -/

/-- Outcome of one pass of the readiness barrier over the executors'
computeReady() results: a TIMEOUT restarts the pass (the goto), any other
non-success is returned through JST_CHECK, and a clean pass proceeds. -/
inductive ReadyOutcome where
  | restart
  | failed (r : Result)
  | ready
deriving DecidableEq, Repr

/-- One pass of the readiness barrier. -/
def readyPass : List Result → ReadyOutcome
  | [] => ReadyOutcome.ready
  | r :: rest =>
      if r = Result.TIMEOUT then ReadyOutcome.restart
      else if r ≠ Result.SUCCESS then ReadyOutcome.failed r
      else readyPass rest

/-- The goto-driven barrier loop over successive rounds of computeReady()
results; none models a barrier still spinning when the given rounds run
out. -/
def readyBarrier : List (List Result) → Option ReadyOutcome
  | [] => Option.none
  | round :: rest =>
      match readyPass round with
      | ReadyOutcome.restart => readyBarrier rest
      | o => some o

/-- The compute-phase loop: res starts at SUCCESS and the loop breaks at
the first executor result that is not SUCCESS. -/
def computePassResult : List Result → Result
  | [] => Result.SUCCESS
  | r :: rest => if r = Result.SUCCESS then computePassResult rest else r

/-- Scheduler::compute for one invocation: empty pipeline and pending halt
short-circuit to success; then the readiness barrier; then one compute
pass whose first non-success is translated — TIMEOUT and SKIP are absorbed
as a logged underrun, anything else is returned verbatim.  The rounds and
results lists stand for the opaque executors' behaviour; none models an
invocation that never leaves the barrier. -/
def computeCall (s : SchedulerState) (halt : Bool)
    (readyRounds : List (List Result)) (computeResults : List Result) :
    Option Result :=
  if s.graphs.isEmpty then some Result.SUCCESS
  else if halt then some Result.SUCCESS
  else
    match readyBarrier readyRounds with
    | Option.none => Option.none
    | some (ReadyOutcome.failed r) => some r
    | some ReadyOutcome.restart => Option.none
    | some ReadyOutcome.ready =>
        let res := computePassResult computeResults
        if res = Result.SUCCESS then some Result.SUCCESS
        else if res = Result.TIMEOUT ∨ res = Result.SKIP then some Result.SUCCESS
        else some res

/-! ## Spec-worded reference definitions

These re-state parts of the specification in its own words, to be compared
with the definitions translated from the source. -/

/-- The spec's phase-1 counter as literally worded: occurrences of a
record hash across every compute module's inputs and outputs combined,
with no guard on the unset (zero) hash. -/
def hashCountAll (cms : List (String × ComputeModuleState)) (h : Nat) : Nat :=
  (cms.flatMap (fun p => p.2.inputMap ++ p.2.outputMap)).countP
    (fun q => decide (q.2.hash = h))

/-- The spec's phase-1 counter over every module, as literally worded
("across every module's inputs and outputs combined"): compute AND
present records, with no guard on the unset hash.  The source only walks
computeModuleStates. -/
def hashCountSpec (s : SchedulerState) (h : Nat) : Nat :=
  (s.computeModuleStates.flatMap (fun p => p.2.inputMap ++ p.2.outputMap)).countP
    (fun q => decide (q.2.hash = h)) +
  (s.presentModuleStates.flatMap (fun p => p.2.inputMap ++ p.2.outputMap)).countP
    (fun q => decide (q.2.hash = h))

/-- The device-run split as the spec words it: walk the current run and
start a new (device, run) entry exactly when the module's device differs
from the previous module's device or its cluster id differs. -/
def chunkGo (sts : List (String × ComputeModuleState)) (d : Device)
    (c : Nat) (run : List String) : List String → List (Device × List String)
  | [] => [(d, run)]
  | n :: rest =>
      let st := stateOf sts n
      if st.device = d ∧ st.clusterId = c then
        chunkGo sts d c (run ++ [n]) rest
      else
        (d, run) :: chunkGo sts st.device st.clusterId [n] rest

/-- The spec-worded grouping of an execution order into device runs. -/
def chunkRuns (sts : List (String × ComputeModuleState)) :
    List String → List (Device × List String)
  | [] => []
  | n :: rest =>
      let st := stateOf sts n
      chunkGo sts st.device st.clusterId [n] rest

/-! ## Proof infrastructure for the ordering loop -/

/-- The flattened decrement sequence fired by emitting x: one entry per
(active output of x, consumer entry of that output's locale hash). -/
def emitHits (sts : List (String × ComputeModuleState)) (x : String) :
    List String :=
  match alookup sts x with
  | Option.none => []
  | some st => st.activeOutputs.flatMap
      (fun o => inputConsumers sts o.2.localeHash)

/-- The decrement sweep as a single fold over the flattened hit list. -/
def hitFold (hits : List String) (dq : (String → Nat) × List String) :
    (String → Nat) × List String :=
  hits.foldl hitOne dq

/-- Total decrements delivered to m by the emissions recorded in exec. -/
def sumHits (sts : List (String × ComputeModuleState)) (exec : List String)
    (m : String) : Nat :=
  (exec.map (fun p => (emitHits sts p).count m)).sum

/-- p produces (at least) one of the active inputs of m: some active
input record of m carries a locale hash that p lists among its active
output locale hashes. -/
def feeds (sts : List (String × ComputeModuleState)) (p m : String) : Prop :=
  ∃ q ∈ (stateOf sts m).activeInputs,
    q.2.localeHash ∈ outLocHashes (stateOf sts p)

instance (sts : List (String × ComputeModuleState)) (p m : String) :
    Decidable (feeds sts p m) := by
  unfold feeds; infer_instance

/-- A feeds-chain: consecutive modules of the list are linked by the
producer-consumer relation. -/
def feedsChain (sts : List (String × ComputeModuleState)) :
    List String → Prop
  | [] => True
  | [_] => True
  | a :: b :: rest => feeds sts a b ∧ feedsChain sts (b :: rest)

/-- Boolean evaluation of a feeds-chain. -/
def feedsChainB (sts : List (String × ComputeModuleState)) :
    List String → Bool
  | [] => true
  | [_] => true
  | a :: b :: rest => decide (feeds sts a b) && feedsChainB sts (b :: rest)

/-- A dependency cycle in the valid module graph: a non-empty chain whose
last module feeds its first. -/
def hasCycle (sts : List (String × ComputeModuleState)) : Prop :=
  ∃ c0 crest, feedsChain sts (c0 :: crest) ∧
    (∀ n ∈ c0 :: crest, n ∈ names sts) ∧
    feeds sts ((c0 :: crest).getLast (List.cons_ne_nil c0 crest)) c0

/-- The loop invariant of the primitive ordering loop, relative to a fixed
valid-module map: the emitted list and ready set are disjoint valid names
without duplication, the degree counters hold the exact number of pending
producer emissions, a module has been reached exactly when its decrement
budget is spent, and every emitted module's producers precede it. -/
structure KInv (sts : List (String × ComputeModuleState)) (ks : KahnState) :
    Prop where
  execNodup : ks.exec.Nodup
  queueNodup : ks.queue.Nodup
  disj : ∀ x ∈ ks.exec, x ∉ ks.queue
  execMem : ∀ x ∈ ks.exec, x ∈ names sts
  queueMem : ∀ x ∈ ks.queue, x ∈ names sts
  degEq : ∀ m, ks.degrees m = d0 sts m - sumHits sts ks.exec m
  drained : ∀ m ∈ names sts,
    ((m ∈ ks.exec ∨ m ∈ ks.queue) ↔ sumHits sts ks.exec m = d0 sts m)
  topo : ∀ i, i < ks.exec.length → ∀ p ∈ names sts,
    feeds sts p (ks.exec.getD i "") → p ∈ ks.exec.take i

/-! ## Concrete scenario data (used by witnesses and counterexamples) -/

/-- The identity iteration-order oracle. -/
def idOracle : Nat → List String → List String := fun _ q => q

/-- The empty scheduler before the first addModule. -/
def emptySched : SchedulerState :=
  { running := false, computeModuleStates := [], presentModuleStates := [],
    validComputeModuleStates := [], validPresentModuleStates := [],
    executionOrder := [], deviceExecutionOrder := [], graphs := [] }

/-- Module a: a CPU source producing hash 1 at locale hash 10. -/
def ioA : ModuleIO :=
  { device := Device.cpu, inputMap := [],
    outputMap := [("out", { hash := 1, localeHash := 10 })],
    hasCompute := true, hasPresent := false }

/-- Module b: a CPU sink consuming hash 1 from locale hash 10. -/
def ioB : ModuleIO :=
  { device := Device.cpu,
    inputMap := [("in", { hash := 1, localeHash := 10 })],
    outputMap := [("out", { hash := 2, localeHash := 20 })],
    hasCompute := true, hasPresent := false }

/-- Module c: consumes hash 3 (produced by d) and produces hash 4. -/
def ioC : ModuleIO :=
  { device := Device.cpu,
    inputMap := [("in", { hash := 3, localeHash := 40 })],
    outputMap := [("out", { hash := 4, localeHash := 30 })],
    hasCompute := true, hasPresent := false }

/-- Module d: consumes hash 4 (produced by c) and produces hash 3 —
together with c a two-module dependency cycle. -/
def ioD : ModuleIO :=
  { device := Device.cpu,
    inputMap := [("in", { hash := 4, localeHash := 30 })],
    outputMap := [("out", { hash := 3, localeHash := 40 })],
    hasCompute := true, hasPresent := false }

/-- The scheduler after successfully adding a and b (one executor built). -/
def schedAB : SchedulerState :=
  (addModule idOracle (addModule idOracle emptySched "a" ioA).1 "b" ioB).1

/-- The scheduler after further adding c (stale on its own; still one
executor). -/
def schedABC : SchedulerState := (addModule idOracle schedAB "c" ioC).1

/-- Adding d to schedABC closes the c-d cycle: the rebuild inside this
call fails the cycle check. -/
def schedABCDcall : SchedulerState × Result :=
  addModule idOracle schedABC "d" ioD

/-- A state whose two compute modules each hold a single zero-hash input
port (an unset record on both sides). -/
def zeroHashSched : SchedulerState :=
  { running := true,
    computeModuleStates :=
      [("a", { device := Device.cpu,
               inputMap := [("x", { hash := 0, localeHash := 0 })],
               outputMap := [], activeInputs := [], activeOutputs := [],
               clusterId := 0 }),
       ("b", { device := Device.cpu,
               inputMap := [("y", { hash := 0, localeHash := 0 })],
               outputMap := [], activeInputs := [], activeOutputs := [],
               clusterId := 0 })],
    presentModuleStates := [], validComputeModuleStates := [],
    validPresentModuleStates := [], executionOrder := [],
    deviceExecutionOrder := [], graphs := [] }

/-- A freshly registered two-module chain a → b (empty active sets), used
to witness the pruning theorems. -/
def freshABSched : SchedulerState :=
  { running := true,
    computeModuleStates :=
      [("a", { device := Device.cpu, inputMap := [],
               outputMap := [("out", { hash := 1, localeHash := 10 })],
               activeInputs := [], activeOutputs := [], clusterId := 0 }),
       ("b", { device := Device.cpu,
               inputMap := [("in", { hash := 1, localeHash := 10 })],
               outputMap := [("out", { hash := 2, localeHash := 20 })],
               activeInputs := [], activeOutputs := [], clusterId := 0 })],
    presentModuleStates := [("b", { inputMap := [], outputMap := [] })],
    validComputeModuleStates := [], validPresentModuleStates := [],
    executionOrder := [], deviceExecutionOrder := [], graphs := [] }

/-- A state as left behind by an earlier prune cycle: module a's output
port is still marked active although its hash now occurs only once (its
former consumer has been removed from the map), since the source never
erases entries from the active maps. -/
def staleActiveSched : SchedulerState :=
  { running := true,
    computeModuleStates :=
      [("a", { device := Device.cpu, inputMap := [],
               outputMap := [("out", { hash := 5, localeHash := 50 })],
               activeInputs := [],
               activeOutputs := [("out", { hash := 5, localeHash := 50 })],
               clusterId := 0 })],
    presentModuleStates := [], validComputeModuleStates := [],
    validPresentModuleStates := [], executionOrder := [],
    deviceExecutionOrder := [], graphs := [] }

/-- A compute module a whose output hash recurs only on a present
module's input: counted across every module the hash occurs twice, but
the source's counting loop only walks the compute modules. -/
def presentCountSched : SchedulerState :=
  { running := true,
    computeModuleStates :=
      [("a", { device := Device.cpu, inputMap := [],
               outputMap := [("out", { hash := 7, localeHash := 70 })],
               activeInputs := [], activeOutputs := [], clusterId := 0 })],
    presentModuleStates :=
      [("p", { inputMap := [("in", { hash := 7, localeHash := 70 })],
               outputMap := [] })],
    validComputeModuleStates := [], validPresentModuleStates := [],
    executionOrder := [], deviceExecutionOrder := [], graphs := [] }

/-- A default Graph value (only used as the out-of-range default of list
indexing in theorem statements). -/
def defGraph : Graph :=
  { device := Device.none, wiredInputs := [], wiredOutputs := [],
    externallyWiredInputs := [], externallyWiredOutputs := [],
    created := false }

/-- Module b pinned to CUDA (the device-boundary scenario). -/
def ioB2 : ModuleIO :=
  { device := Device.cuda,
    inputMap := [("in", { hash := 1, localeHash := 10 })],
    outputMap := [("out", { hash := 2, localeHash := 20 })],
    hasCompute := true, hasPresent := false }

/-- Module c consuming b's output on CPU (the device-boundary scenario:
its output record aliases its input, an in-place terminal). -/
def ioC2 : ModuleIO :=
  { device := Device.cpu,
    inputMap := [("in", { hash := 2, localeHash := 20 })],
    outputMap := [("out", { hash := 2, localeHash := 20 })],
    hasCompute := true, hasPresent := false }

/-- The scheduler after the device-boundary chain a(CPU) → b(CUDA) →
c(CPU): three executors with externally wired ports between each adjacent
pair. -/
def schedCrossDev : SchedulerState :=
  (addModule idOracle
    (addModule idOracle
      (addModule idOracle emptySched "a" ioA).1 "b" ioB2).1 "c" ioC2).1

/-- A two-module chain a → b as a valid-module map (used to witness the
ordering-loop theorems on a concrete input). -/
def chainSts : List (String × ComputeModuleState) :=
  [("a", { device := Device.cpu, inputMap := [],
           outputMap := [("out", { hash := 1, localeHash := 10 })],
           activeInputs := [],
           activeOutputs := [("out", { hash := 1, localeHash := 10 })],
           clusterId := 0 }),
   ("b", { device := Device.cpu,
           inputMap := [("in", { hash := 1, localeHash := 10 })],
           outputMap := [],
           activeInputs := [("in", { hash := 1, localeHash := 10 })],
           activeOutputs := [], clusterId := 0 })]

/-! # Theorems

## Association-list basics -/

theorem alookup_aInsert_self {β : Type} (l : List (String × β)) (k : String)
    (v : β) : alookup (aInsert l k v) k = some v := by
  induction l with
  | nil => simp [aInsert, alookup]
  | cons p rest ih =>
      by_cases h : p.1 = k
      · simp [aInsert, h, alookup]
      · simp [aInsert, h, alookup, ih]

theorem alookup_aInsert_ne {β : Type} (l : List (String × β))
    (k k' : String) (v : β) (h : k ≠ k') :
    alookup (aInsert l k' v) k = alookup l k := by
  have h' : ¬(k' = k) := fun hh => h hh.symm
  induction l with
  | nil => simp [aInsert, alookup, h']
  | cons p rest ih =>
      by_cases hp : p.1 = k'
      · rw [show aInsert (p :: rest) k' v = (p.1, v) :: rest by
          simp [aInsert, hp]]
        simp only [alookup, hp, h']
        rfl
      · rw [show aInsert (p :: rest) k' v = (p.1, p.2) :: aInsert rest k' v by
          simp [aInsert, hp]]
        by_cases hk : p.1 = k
        · simp [alookup, hk]
        · simp [alookup, hk, ih]

theorem aInsert_of_alookup {β : Type} (l : List (String × β)) (k : String)
    (v : β) (h : alookup l k = some v) : aInsert l k v = l := by
  induction l with
  | nil => simp [alookup] at h
  | cons p rest ih =>
      obtain ⟨a, b⟩ := p
      by_cases hp : a = k
      · simp only [alookup, if_pos hp, Option.some_inj] at h
        simp [aInsert, hp, h]
      · simp only [alookup, if_neg hp] at h
        simp [aInsert, hp, ih h]

theorem aInsert_append_of_not_mem {β : Type} (l : List (String × β))
    (k : String) (v : β) (h : k ∉ l.map Prod.fst) :
    aInsert l k v = l ++ [(k, v)] := by
  induction l with
  | nil => simp [aInsert]
  | cons p rest ih =>
      simp only [List.map_cons, List.mem_cons, not_or] at h
      have h1 : ¬p.1 = k := fun hh => h.1 hh.symm
      simp [aInsert, h1, ih h.2]

theorem mem_keys_aInsert {β : Type} (l : List (String × β)) (k : String)
    (v : β) : k ∈ (aInsert l k v).map Prod.fst := by
  induction l with
  | nil => simp [aInsert]
  | cons p rest ih =>
      by_cases hp : p.1 = k
      · simp [aInsert, hp]
      · simp only [aInsert, if_neg hp, List.map_cons, List.mem_cons]
        exact Or.inr ih

/-! ## condFold: the guarded assignment sweep -/

theorem condFold_cons {β : Type} (c : String × β → Bool)
    (acc : List (String × β)) (q : String × β) (l : List (String × β)) :
    condFold c acc (q :: l) =
      condFold c (if c q then aInsert acc q.1 q.2 else acc) l := by
  simp [condFold, List.foldl_cons]

theorem alookup_condFold_of_not_mem {β : Type} (c : String × β → Bool)
    (l : List (String × β)) (acc : List (String × β)) (k : String)
    (h : k ∉ (l.filter c).map Prod.fst) :
    alookup (condFold c acc l) k = alookup acc k := by
  induction l generalizing acc with
  | nil => simp [condFold]
  | cons q rest ih =>
      rw [condFold_cons]
      by_cases hc : c q
      · have hk : k ≠ q.1 := by
          intro he
          apply h
          simp [List.filter_cons, hc, he]
        have hrest : k ∉ (rest.filter c).map Prod.fst := by
          intro hm; apply h; simp [List.filter_cons, hc, hm]
        rw [if_pos hc, ih _ hrest, alookup_aInsert_ne _ _ _ _ hk]
      · have hrest : k ∉ (rest.filter c).map Prod.fst := by
          intro hm; apply h
          rw [List.filter_cons, if_neg (by simp [hc])]
          exact hm
        rw [if_neg hc, ih _ hrest]

theorem alookup_eq_none {β : Type} (l : List (String × β)) (k : String)
    (h : k ∉ l.map Prod.fst) : alookup l k = Option.none := by
  induction l with
  | nil => rfl
  | cons p rest ih =>
      simp only [List.map_cons, List.mem_cons, not_or] at h
      have h1 : ¬p.1 = k := fun hh => h.1 hh.symm
      simp only [alookup, if_neg h1]
      exact ih h.2

/-- The sweep at one key, for a map with unique keys: the key's entry is
rewritten exactly when its record passes the condition, and the prior
binding shows through otherwise. -/
theorem alookup_condFold {β : Type} (c : String × β → Bool)
    (l : List (String × β)) (acc : List (String × β)) (k : String)
    (hnd : (l.map Prod.fst).Nodup) :
    alookup (condFold c acc l) k =
      (match alookup l k with
       | some v => if c (k, v) then some v else alookup acc k
       | Option.none => alookup acc k) := by
  induction l generalizing acc with
  | nil => rfl
  | cons q rest ih =>
      obtain ⟨q1, q2⟩ := q
      simp only [List.map_cons, List.nodup_cons] at hnd
      rw [condFold_cons]
      by_cases hqk : q1 = k
      · subst hqk
        have hknotrest : q1 ∉ rest.map Prod.fst := hnd.1
        have hkf : q1 ∉ (rest.filter c).map Prod.fst := by
          intro hm
          obtain ⟨p, hpf, hpk⟩ := List.mem_map.mp hm
          exact hknotrest
            (List.mem_map.mpr ⟨p, List.mem_of_mem_filter hpf, hpk⟩)
        have hlk : alookup ((q1, q2) :: rest) q1 = some q2 := by
          simp [alookup]
        rw [hlk]
        by_cases hc : c (q1, q2)
        · rw [if_pos hc]
          show alookup (condFold c (aInsert acc q1 q2) rest) q1 =
            if c (q1, q2) = true then some q2 else alookup acc q1
          rw [if_pos hc, alookup_condFold_of_not_mem c rest _ _ hkf]
          exact alookup_aInsert_self _ _ _
        · rw [if_neg hc]
          show alookup (condFold c acc rest) q1 =
            if c (q1, q2) = true then some q2 else alookup acc q1
          rw [if_neg hc, alookup_condFold_of_not_mem c rest _ _ hkf]
      · have hlk : alookup ((q1, q2) :: rest) k = alookup rest k := by
          simp [alookup, hqk]
        rw [hlk, ih _ hnd.2]
        have hacck :
            alookup (if c (q1, q2) then aInsert acc q1 q2 else acc) k =
              alookup acc k := by
          by_cases hc : c (q1, q2)
          · rw [if_pos hc]
            exact alookup_aInsert_ne _ _ _ _ (fun hh => hqk hh.symm)
          · rw [if_neg hc]
        rw [hacck]

theorem condFold_idem {β : Type} (c : String × β → Bool)
    (l : List (String × β))
    (hnd : ((l.filter c).map Prod.fst).Nodup) (acc : List (String × β)) :
    condFold c (condFold c acc l) l = condFold c acc l := by
  induction l generalizing acc with
  | nil => simp [condFold]
  | cons q rest ih =>
      by_cases hc : c q
      · have hfil : ((q :: rest).filter c) = q :: rest.filter c := by
          simp [List.filter_cons, hc]
        rw [hfil] at hnd
        simp only [List.map_cons, List.nodup_cons] at hnd
        have hnotmem : q.1 ∉ (rest.filter c).map Prod.fst := hnd.1
        rw [condFold_cons, condFold_cons, if_pos hc, if_pos hc]
        have hlook :
            alookup (condFold c (aInsert acc q.1 q.2) rest) q.1 = some q.2 := by
          rw [alookup_condFold_of_not_mem c rest _ _ hnotmem]
          exact alookup_aInsert_self _ _ _
        rw [aInsert_of_alookup _ _ _ hlook]
        exact ih hnd.2 (aInsert acc q.1 q.2)
      · have hfil : ((q :: rest).filter c) = rest.filter c := by
          simp [List.filter_cons, hc]
        rw [hfil] at hnd
        rw [condFold_cons, condFold_cons, if_neg hc, if_neg hc]
        exact ih hnd acc

theorem condFold_eq_append_filter {β : Type} (c : String × β → Bool)
    (l : List (String × β)) (acc : List (String × β))
    (hnd : (l.map Prod.fst).Nodup)
    (hdis : ∀ k ∈ acc.map Prod.fst, k ∉ l.map Prod.fst) :
    condFold c acc l = acc ++ l.filter c := by
  induction l generalizing acc with
  | nil => simp [condFold]
  | cons q rest ih =>
      simp only [List.map_cons, List.nodup_cons] at hnd
      rw [condFold_cons]
      by_cases hc : c q
      · rw [if_pos hc]
        have hqnot : q.1 ∉ acc.map Prod.fst := by
          intro hmem
          exact hdis q.1 hmem (by simp)
        rw [aInsert_append_of_not_mem _ _ _ hqnot]
        have hdis2 : ∀ k ∈ (acc ++ [(q.1, q.2)]).map Prod.fst,
            k ∉ rest.map Prod.fst := by
          intro k hk
          simp only [List.map_append, List.mem_append, List.map_cons,
            List.map_nil, List.mem_singleton] at hk
          rcases hk with hk | hk
          · intro hr
            exact hdis k hk (by simp [hr])
          · rw [hk]; exact hnd.1
        rw [ih _ hnd.2 hdis2]
        simp [List.filter_cons, hc]
      · rw [if_neg hc]
        have hdis2 : ∀ k ∈ acc.map Prod.fst, k ∉ rest.map Prod.fst := by
          intro k hk hr
          exact hdis k hk (by simp [hr])
        rw [ih _ hnd.2 hdis2]
        simp [List.filter_cons, hc]

/-! ## removeInactive: characterization and idempotence -/

theorem condFold_congr {β : Type} (c1 c2 : String × β → Bool)
    (h : ∀ q, c1 q = c2 q) (l acc : List (String × β)) :
    condFold c1 acc l = condFold c2 acc l := by
  induction l generalizing acc with
  | nil => rfl
  | cons q rest ih => rw [condFold_cons, condFold_cons, h q]; exact ih _

theorem ioMaps_activated (s : SchedulerState) :
    (activatedCMS s).flatMap (fun p => p.2.inputMap ++ p.2.outputMap) =
      s.computeModuleStates.flatMap (fun p => p.2.inputMap ++ p.2.outputMap) := by
  unfold activatedCMS
  rw [List.flatMap_map]
  rfl

theorem hashCount_activated (s : SchedulerState) (h : Nat) :
    hashCount (activatedCMS s) h = hashCount s.computeModuleStates h := by
  unfold hashCount
  rw [ioMaps_activated]

theorem activeCond_activated (s : SchedulerState) (r : Record) :
    activeCond (activatedCMS s) r = activeCond s.computeModuleStates r := by
  unfold activeCond
  rw [hashCount_activated]

theorem filter_keys_nodup {β : Type} (c : String × β → Bool)
    (l : List (String × β)) (h : (l.map Prod.fst).Nodup) :
    ((l.filter c).map Prod.fst).Nodup :=
  List.Nodup.sublist (List.Sublist.map Prod.fst (List.filter_sublist l)) h

theorem activateModule_congr (cms1 cms2 : List (String × ComputeModuleState))
    (h : ∀ r, activeCond cms1 r = activeCond cms2 r)
    (p : String × ComputeModuleState) :
    activateModule cms1 p = activateModule cms2 p := by
  unfold activateModule updActive
  rw [condFold_congr _ _ (fun q => h q.2),
      condFold_congr _ _ (fun q => h q.2)]

theorem activateModule_idem (cms : List (String × ComputeModuleState))
    (p : String × ComputeModuleState)
    (hin : (p.2.inputMap.map Prod.fst).Nodup)
    (hout : (p.2.outputMap.map Prod.fst).Nodup) :
    activateModule cms (activateModule cms p) = activateModule cms p := by
  unfold activateModule updActive
  simp only
  rw [condFold_idem _ _ (filter_keys_nodup _ _ hin),
      condFold_idem _ _ (filter_keys_nodup _ _ hout)]

/-- Prune idempotence, claim C7 (helper form on the activated map). -/
theorem activatedCMS_idem (s : SchedulerState)
    (hkeys : ∀ p ∈ s.computeModuleStates,
      (p.2.inputMap.map Prod.fst).Nodup ∧ (p.2.outputMap.map Prod.fst).Nodup) :
    activatedCMS (removeInactive s) = activatedCMS s := by
  have h1 : activatedCMS (removeInactive s) =
      (activatedCMS s).map (activateModule (activatedCMS s)) := rfl
  rw [h1,
    List.map_congr_left (fun p _ =>
      activateModule_congr _ _ (activeCond_activated s) p)]
  show (s.computeModuleStates.map (activateModule s.computeModuleStates)).map
      (activateModule s.computeModuleStates) = activatedCMS s
  rw [List.map_map]
  apply List.map_congr_left
  intro p hp
  exact activateModule_idem _ p (hkeys p hp).1 (hkeys p hp).2

/-- Prune idempotence.  Claim C7: for every scheduler state whose record
maps have unique pin names per module (the RecordMap key-uniqueness of the
data model), running removeInactive twice yields exactly the same
computeModuleStates (hence the same active sets) and the same valid maps
as running it once. -/
theorem removeInactive_idempotent (s : SchedulerState)
    (hkeys : ∀ p ∈ s.computeModuleStates,
      (p.2.inputMap.map Prod.fst).Nodup ∧ (p.2.outputMap.map Prod.fst).Nodup) :
    removeInactive (removeInactive s) = removeInactive s := by
  have hact := activatedCMS_idem s hkeys
  show ({ removeInactive s with
    computeModuleStates := activatedCMS (removeInactive s),
    validComputeModuleStates :=
      (activatedCMS (removeInactive s)).filter
        (fun p => !staleB (activatedCMS (removeInactive s)) p.1),
    validPresentModuleStates :=
      (removeInactive s).presentModuleStates.filter
        (fun p => !staleB (activatedCMS (removeInactive s)) p.1) } :
    SchedulerState) = removeInactive s
  rw [hact]
  rfl

/-- Witness for claim C7 at a concrete state. -/
theorem removeInactive_idempotent_witness :
    (∀ p ∈ schedAB.computeModuleStates,
      (p.2.inputMap.map Prod.fst).Nodup ∧ (p.2.outputMap.map Prod.fst).Nodup) ∧
    removeInactive (removeInactive schedAB) = removeInactive schedAB :=
  ⟨by decide, removeInactive_idempotent schedAB (by decide)⟩

/-! ## Claim C4 — the pruning characterization -/

theorem alookup_of_mem_nodup {β : Type} (l : List (String × β))
    (p : String × β) (hnd : (l.map Prod.fst).Nodup) (hp : p ∈ l) :
    alookup l p.1 = some p.2 := by
  induction l with
  | nil => cases hp
  | cons q rest ih =>
      simp only [List.map_cons, List.nodup_cons] at hnd
      rcases List.mem_cons.mp hp with h | h
      · rw [h]; simp [alookup]
      · have hne : ¬q.1 = p.1 := by
          intro he
          exact hnd.1 (he ▸ List.mem_map_of_mem Prod.fst h)
        simp only [alookup, if_neg hne]
        exact ih hnd.2 h

theorem keys_activatedCMS (s : SchedulerState) :
    (activatedCMS s).map Prod.fst = s.computeModuleStates.map Prod.fst := by
  unfold activatedCMS
  rw [List.map_map]
  rfl

/-- The source's activation test agrees with the spec-worded count on
nonzero hashes and rejects the unset (zero) hash outright. -/
theorem activeCond_eq_spec (cms : List (String × ComputeModuleState))
    (r : Record) :
    activeCond cms r =
      decide (r.hash ≠ 0 ∧ 1 < hashCountAll cms r.hash) := by
  by_cases h : r.hash = 0
  · have hz : hashCount cms r.hash = 0 := by
      unfold hashCount
      rw [List.countP_eq_zero]
      intro a _
      simp [h]
    unfold activeCond
    rw [hz]
    simp [h]
  · have he : hashCount cms r.hash = hashCountAll cms r.hash := by
      unfold hashCount hashCountAll
      apply List.countP_congr
      intro q _
      simp only [decide_eq_true_eq]
      constructor
      · exact fun hh => hh.2
      · intro hh; exact ⟨by rw [hh]; exact h, hh⟩
    unfold activeCond
    simp [he, h]

/-- Pruning characterization, claim C4 as amended.  For every state whose
module maps have unique module names and unique pin names per module (the
C++ map key uniqueness): after removeInactive, a compute module's port is
bound in the active map to its current record exactly when that record's
hash is nonzero and occurs more than once across the compute modules'
inputs and outputs combined, and otherwise keeps whatever binding an
earlier prune had left (the active maps are never cleared, so a port can
stay active although its count has dropped to 1); a compute module whose
resulting active sets are both empty is excluded from
valid_compute_module_states and, by name, from
valid_present_module_states; present entries without a stale compute
namesake are kept, and present modules' own ports are neither counted nor
activated. -/
theorem removeInactive_prune_characterization (s : SchedulerState)
    (hnames : (s.computeModuleStates.map Prod.fst).Nodup)
    (hkeys : ∀ p ∈ s.computeModuleStates,
      (p.2.inputMap.map Prod.fst).Nodup ∧ (p.2.outputMap.map Prod.fst).Nodup) :
    (∀ p ∈ s.computeModuleStates, ∀ k,
      alookup
          (stateOf (removeInactive s).computeModuleStates p.1).activeInputs
          k =
        (match alookup p.2.inputMap k with
         | some r =>
             if r.hash ≠ 0 ∧ 1 < hashCountAll s.computeModuleStates r.hash
             then some r else alookup p.2.activeInputs k
         | Option.none => alookup p.2.activeInputs k) ∧
      alookup
          (stateOf (removeInactive s).computeModuleStates p.1).activeOutputs
          k =
        (match alookup p.2.outputMap k with
         | some r =>
             if r.hash ≠ 0 ∧ 1 < hashCountAll s.computeModuleStates r.hash
             then some r else alookup p.2.activeOutputs k
         | Option.none => alookup p.2.activeOutputs k)) ∧
    (∀ p ∈ (removeInactive s).computeModuleStates,
      (p ∈ (removeInactive s).validComputeModuleStates ↔
        ¬(p.2.activeInputs = [] ∧ p.2.activeOutputs = []))) ∧
    (∀ p ∈ s.presentModuleStates,
      (p ∈ (removeInactive s).validPresentModuleStates ↔
        staleB (activatedCMS s) p.1 = false)) := by
  have hcondif : ∀ (r : Record) (a b : Option Record),
      (if activeCond s.computeModuleStates r = true then a else b) =
        (if r.hash ≠ 0 ∧ 1 < hashCountAll s.computeModuleStates r.hash
         then a else b) := by
    intro r a b
    by_cases h : r.hash ≠ 0 ∧ 1 < hashCountAll s.computeModuleStates r.hash
    · have hb : activeCond s.computeModuleStates r = true := by
        rw [activeCond_eq_spec]
        exact decide_eq_true h
      rw [if_pos hb, if_pos h]
    · have hb : ¬ activeCond s.computeModuleStates r = true := by
        rw [activeCond_eq_spec]
        intro hd
        exact h (of_decide_eq_true hd)
      rw [if_neg hb, if_neg h]
  refine ⟨?_, ?_, ?_⟩
  · intro p hp k
    have hact : activateModule s.computeModuleStates p ∈ activatedCMS s :=
      List.mem_map_of_mem _ hp
    have hndact : ((activatedCMS s).map Prod.fst).Nodup := by
      rw [keys_activatedCMS]
      exact hnames
    have hlook : alookup (activatedCMS s) p.1 =
        some (activateModule s.computeModuleStates p).2 :=
      alookup_of_mem_nodup _ _ hndact hact
    have hstate : stateOf (removeInactive s).computeModuleStates p.1 =
        (activateModule s.computeModuleStates p).2 := by
      show stateOf (activatedCMS s) p.1 = _
      unfold stateOf
      rw [hlook]
      rfl
    rw [hstate]
    constructor
    · show alookup (condFold
          (fun q => activeCond s.computeModuleStates q.2)
          p.2.activeInputs p.2.inputMap) k = _
      rw [alookup_condFold _ _ _ k (hkeys p hp).1]
      cases hm : alookup p.2.inputMap k with
      | none => rfl
      | some r => exact hcondif r _ _
    · show alookup (condFold
          (fun q => activeCond s.computeModuleStates q.2)
          p.2.activeOutputs p.2.outputMap) k = _
      rw [alookup_condFold _ _ _ k (hkeys p hp).2]
      cases hm : alookup p.2.outputMap k with
      | none => rfl
      | some r => exact hcondif r _ _
  · intro p hp
    have hndact : ((activatedCMS s).map Prod.fst).Nodup := by
      rw [keys_activatedCMS]; exact hnames
    have hlook : alookup (activatedCMS s) p.1 = some p.2 :=
      alookup_of_mem_nodup _ p hndact hp
    have hstale : staleB (activatedCMS s) p.1 =
        (p.2.activeInputs.isEmpty && p.2.activeOutputs.isEmpty) := by
      unfold staleB
      rw [hlook]
    show p ∈ (activatedCMS s).filter (fun q => !staleB (activatedCMS s) q.1) ↔ _
    rw [List.mem_filter]
    constructor
    · intro ⟨_, hb⟩ hcontra
      rw [hstale] at hb
      simp only [List.isEmpty_iff, hcontra.1, hcontra.2] at hb
      simp at hb
    · intro hne
      refine ⟨hp, ?_⟩
      rw [hstale]
      simp only [Bool.not_eq_true', Bool.and_eq_false_iff]
      by_cases h1 : p.2.activeInputs = []
      · right
        simp only [List.isEmpty_eq_false]
        intro h2
        exact hne ⟨h1, h2⟩
      · left
        simp only [List.isEmpty_eq_false]
        exact h1
  · intro p hp
    show p ∈ s.presentModuleStates.filter
      (fun q => !staleB (activatedCMS s) q.1) ↔ _
    rw [List.mem_filter]
    constructor
    · intro ⟨_, hb⟩
      simpa using hb
    · intro hb
      exact ⟨hp, by simp [hb]⟩

/-- Witness for claim C4 at a state carrying an active binding left by an
earlier prune. -/
theorem removeInactive_prune_characterization_witness :
    ((staleActiveSched.computeModuleStates.map Prod.fst).Nodup ∧
     (∀ p ∈ staleActiveSched.computeModuleStates,
       (p.2.inputMap.map Prod.fst).Nodup ∧
       (p.2.outputMap.map Prod.fst).Nodup)) ∧
    ((∀ p ∈ staleActiveSched.computeModuleStates, ∀ k,
      alookup
          (stateOf (removeInactive staleActiveSched).computeModuleStates
            p.1).activeInputs k =
        (match alookup p.2.inputMap k with
         | some r =>
             if r.hash ≠ 0 ∧
                 1 < hashCountAll staleActiveSched.computeModuleStates r.hash
             then some r else alookup p.2.activeInputs k
         | Option.none => alookup p.2.activeInputs k) ∧
      alookup
          (stateOf (removeInactive staleActiveSched).computeModuleStates
            p.1).activeOutputs k =
        (match alookup p.2.outputMap k with
         | some r =>
             if r.hash ≠ 0 ∧
                 1 < hashCountAll staleActiveSched.computeModuleStates r.hash
             then some r else alookup p.2.activeOutputs k
         | Option.none => alookup p.2.activeOutputs k)) ∧
    (∀ p ∈ (removeInactive staleActiveSched).computeModuleStates,
      (p ∈ (removeInactive staleActiveSched).validComputeModuleStates ↔
        ¬(p.2.activeInputs = [] ∧ p.2.activeOutputs = []))) ∧
    (∀ p ∈ staleActiveSched.presentModuleStates,
      (p ∈ (removeInactive staleActiveSched).validPresentModuleStates ↔
        staleB (activatedCMS staleActiveSched) p.1 = false))) :=
  ⟨⟨by decide, by decide⟩,
    removeInactive_prune_characterization staleActiveSched
      (by decide) (by decide)⟩

/-- Counterexample to claim C4 as stated, in three parts.  (1) Zero-hash
ports are never activated: with two zero-hash input ports the claim's
occurrence count of hash 0 exceeds 1, yet the source activates neither
port and prunes both modules.  (2) The active maps are never cleared: a
port left active by an earlier prune stays active, and its module stays
valid, although its hash now occurs only once.  (3) Only compute modules
are counted: a compute output whose hash recurs solely on a present
module's input counts twice across every module, yet the source leaves it
inactive and prunes the module. -/
theorem c4_counterexample :
    (1 < hashCountAll zeroHashSched.computeModuleStates 0 ∧
     (∀ p ∈ (removeInactive zeroHashSched).computeModuleStates,
       p.2.activeInputs = []) ∧
     (removeInactive zeroHashSched).validComputeModuleStates = []) ∧
    (hashCountAll staleActiveSched.computeModuleStates 5 = 1 ∧
     (stateOf (removeInactive staleActiveSched).computeModuleStates
       "a").activeOutputs ≠ [] ∧
     (removeInactive staleActiveSched).validComputeModuleStates ≠ []) ∧
    (1 < hashCountSpec presentCountSched 7 ∧
     (stateOf (removeInactive presentCountSched).computeModuleStates
       "a").activeOutputs = [] ∧
     (removeInactive presentCountSched).validComputeModuleStates = []) := by
  decide

/-! ## Claim C8 — the selection loop cannot spin -/

theorem effOrder_perm (oracle : Nat → List String → List String)
    (stepIdx : Nat) (queue : List String) :
    (effOrder oracle stepIdx queue).Perm queue := by
  unfold effOrder
  by_cases h : (oracle stepIdx queue).Perm queue
  · simp only [if_pos h]
    exact h
  · simp only [if_neg h]
    exact List.Perm.refl queue

theorem effOrder_ne_nil (oracle : Nat → List String → List String)
    (stepIdx : Nat) (queue : List String) (h : queue ≠ []) :
    effOrder oracle stepIdx queue ≠ [] := by
  intro hc
  have hp := effOrder_perm oracle stepIdx queue
  rw [hc] at hp
  exact h (List.Perm.nil_eq hp).symm

theorem pickFrom_cons (sts : List (String × ComputeModuleState))
    (n : String) (rest : List String) (last : Device) :
    pickFrom sts (n :: rest) last =
      (if devOf sts n = (if last = Device.none then devOf sts n else last)
       then some (n, devOf sts n)
       else pickFrom sts rest
         (if last = Device.none then devOf sts n else last)) := rfl

theorem pickFrom_mem (sts : List (String × ComputeModuleState))
    (order : List String) (last : Device) (x : String) (d : Device)
    (h : pickFrom sts order last = some (x, d)) : x ∈ order := by
  induction order generalizing last with
  | nil => simp [pickFrom] at h
  | cons n rest ih =>
      rw [pickFrom_cons] at h
      by_cases hc : devOf sts n = (if last = Device.none then devOf sts n else last)
      · rw [if_pos hc, Option.some_inj] at h
        rw [show x = n from congrArg Prod.fst h.symm]
        exact List.mem_cons_self n rest
      · rw [if_neg hc] at h
        exact List.mem_cons_of_mem _ (ih _ h)

theorem pickFrom_none_selects (sts : List (String × ComputeModuleState))
    (n : String) (rest : List String) :
    pickFrom sts (n :: rest) Device.none = some (n, devOf sts n) := by
  rw [pickFrom_cons]
  simp

theorem kahnStep_of_ne_nil (sts : List (String × ComputeModuleState))
    (oracle : Nat → List String → List String) (stepIdx : Nat)
    (ks : KahnState) (hne : ks.queue ≠ []) :
    kahnStep sts oracle stepIdx ks =
      (match
        (match pickFrom sts (effOrder oracle stepIdx ks.queue) ks.last with
         | some p => some p
         | Option.none =>
             pickFrom sts (effOrder oracle stepIdx ks.queue) Device.none) with
       | Option.none => Option.none
       | some (x, d) =>
           some (relax sts x
             { ks with queue := ks.queue.erase x,
                       exec := ks.exec ++ [x],
                       last := d })) := by
  obtain ⟨Q, deg, ex, la⟩ := ks
  replace hne : Q ≠ [] := hne
  obtain ⟨q0, qrest, hq⟩ := List.exists_cons_of_ne_nil hne
  subst hq
  rfl

/-- Termination of the selection loop, claim C8: whenever the ready set is
non-empty, the iteration selects and removes some ready module after at
most one device reset — either the scan with the carried lastDevice picks,
or that scan comes up empty and the rescan with lastDevice reset to None
picks (always its first element); the loop therefore never spins on a
non-empty ready set. -/
theorem kahn_select_no_spin (sts : List (String × ComputeModuleState))
    (oracle : Nat → List String → List String) (stepIdx : Nat)
    (ks : KahnState) (hne : ks.queue ≠ []) :
    ∃ x d,
      (pickFrom sts (effOrder oracle stepIdx ks.queue) ks.last = some (x, d) ∨
        (pickFrom sts (effOrder oracle stepIdx ks.queue) ks.last = Option.none ∧
         pickFrom sts (effOrder oracle stepIdx ks.queue) Device.none =
           some (x, d))) ∧
      x ∈ ks.queue ∧
      kahnStep sts oracle stepIdx ks =
        some (relax sts x
          { ks with queue := ks.queue.erase x,
                    exec := ks.exec ++ [x],
                    last := d }) := by
  have hperm := effOrder_perm oracle stepIdx ks.queue
  have hstep := kahnStep_of_ne_nil sts oracle stepIdx ks hne
  cases hpick : pickFrom sts (effOrder oracle stepIdx ks.queue) ks.last with
  | some p =>
      obtain ⟨x, d⟩ := p
      refine ⟨x, d, Or.inl rfl, ?_, ?_⟩
      · exact hperm.mem_iff.mp (pickFrom_mem _ _ _ _ _ hpick)
      · rw [hstep, hpick]
  | none =>
      obtain ⟨o0, orest, ho⟩ := List.exists_cons_of_ne_nil
        (effOrder_ne_nil oracle stepIdx ks.queue hne)
      have hpick2 : pickFrom sts (effOrder oracle stepIdx ks.queue)
          Device.none = some (o0, devOf sts o0) := by
        rw [ho]; exact pickFrom_none_selects sts o0 orest
      refine ⟨o0, devOf sts o0, Or.inr ⟨rfl, hpick2⟩, ?_, ?_⟩
      · exact hperm.mem_iff.mp (ho ▸ List.mem_cons_self o0 orest)
      · rw [hstep, hpick, hpick2]

/-- Witness for claim C8 at a concrete state. -/
theorem kahn_select_no_spin_witness :
    (seedState chainSts).queue ≠ [] ∧
    ∃ x d,
      (pickFrom chainSts (effOrder idOracle 0 (seedState chainSts).queue)
          (seedState chainSts).last = some (x, d) ∨
        (pickFrom chainSts (effOrder idOracle 0 (seedState chainSts).queue)
            (seedState chainSts).last = Option.none ∧
         pickFrom chainSts (effOrder idOracle 0 (seedState chainSts).queue)
            Device.none = some (x, d))) ∧
      x ∈ (seedState chainSts).queue ∧
      kahnStep chainSts idOracle 0 (seedState chainSts) =
        some (relax chainSts x
          { seedState chainSts with
              queue := (seedState chainSts).queue.erase x,
              exec := (seedState chainSts).exec ++ [x],
              last := d }) :=
  ⟨by decide, kahn_select_no_spin chainSts idOracle 0 (seedState chainSts)
    (by decide)⟩

/-! ## Claim C6 — underrun absorption in compute() -/

theorem computePassResult_all_success (rs : List Result)
    (h : ∀ r ∈ rs, r = Result.SUCCESS) :
    computePassResult rs = Result.SUCCESS := by
  induction rs with
  | nil => rfl
  | cons r rest ih =>
      rw [show computePassResult (r :: rest) =
        (if r = Result.SUCCESS then computePassResult rest else r) from rfl]
      rw [if_pos (h r (List.mem_cons_self r rest))]
      exact ih (fun r hr => h r (List.mem_cons_of_mem _ hr))

theorem computeCall_of_ready (s : SchedulerState) (halt : Bool)
    (rounds : List (List Result)) (results : List Result)
    (hne : s.graphs ≠ []) (hh : halt = false)
    (hb : readyBarrier rounds = some ReadyOutcome.ready) :
    computeCall s halt rounds results =
      (if computePassResult results = Result.SUCCESS then some Result.SUCCESS
       else if computePassResult results = Result.TIMEOUT ∨
               computePassResult results = Result.SKIP then some Result.SUCCESS
       else some (computePassResult results)) := by
  unfold computeCall
  rw [if_neg (by simp [List.isEmpty_iff, hne]), hh, if_neg (by simp), hb]

/-- Underrun absorption, claim C6: for an invocation with a non-empty
executor list, no halt pending, and a readiness barrier that concludes,
the compute pass returns SUCCESS when every executor computes
successfully; a first non-success of TIMEOUT or SKIP is absorbed into
SUCCESS (the logged skipped frame); any other first non-success is
returned verbatim. -/
theorem compute_underrun_absorption (s : SchedulerState) (halt : Bool)
    (rounds : List (List Result)) (results : List Result)
    (hne : s.graphs ≠ []) (hh : halt = false)
    (hb : readyBarrier rounds = some ReadyOutcome.ready) :
    ((∀ r ∈ results, r = Result.SUCCESS) →
      computeCall s halt rounds results = some Result.SUCCESS) ∧
    ((computePassResult results = Result.TIMEOUT ∨
      computePassResult results = Result.SKIP) →
      computeCall s halt rounds results = some Result.SUCCESS) ∧
    (∀ x, computePassResult results = x → x ≠ Result.SUCCESS →
      x ≠ Result.TIMEOUT → x ≠ Result.SKIP →
      computeCall s halt rounds results = some x) := by
  rw [computeCall_of_ready s halt rounds results hne hh hb]
  refine ⟨?_, ?_, ?_⟩
  · intro hall
    rw [if_pos (computePassResult_all_success results hall)]
  · intro hts
    by_cases hsucc : computePassResult results = Result.SUCCESS
    · rw [if_pos hsucc]
    · rw [if_neg hsucc, if_pos hts]
  · intro x hx h1 h2 h3
    rw [hx, if_neg h1, if_neg (fun hc => hc.elim h2 h3)]

/-- Witness for claim C6 at concrete executor results. -/
theorem compute_underrun_absorption_witness :
    (schedAB.graphs ≠ [] ∧
      readyBarrier [[Result.TIMEOUT, Result.SUCCESS], [Result.SUCCESS]] =
        some ReadyOutcome.ready) ∧
    ((∀ r ∈ [Result.ERROR], r = Result.SUCCESS) →
      computeCall schedAB false [[Result.TIMEOUT, Result.SUCCESS],
        [Result.SUCCESS]] [Result.ERROR] = some Result.SUCCESS) ∧
    ((computePassResult [Result.ERROR] = Result.TIMEOUT ∨
      computePassResult [Result.ERROR] = Result.SKIP) →
      computeCall schedAB false [[Result.TIMEOUT, Result.SUCCESS],
        [Result.SUCCESS]] [Result.ERROR] = some Result.SUCCESS) ∧
    (∀ x, computePassResult [Result.ERROR] = x → x ≠ Result.SUCCESS →
      x ≠ Result.TIMEOUT → x ≠ Result.SKIP →
      computeCall schedAB false [[Result.TIMEOUT, Result.SUCCESS],
        [Result.SUCCESS]] [Result.ERROR] = some x) :=
  ⟨⟨by decide, by decide⟩,
    compute_underrun_absorption schedAB false
      [[Result.TIMEOUT, Result.SUCCESS], [Result.SUCCESS]] [Result.ERROR]
      (by decide) rfl (by decide)⟩

/-! ## Claim C5 — device-run locality of deviceExecutionOrder -/

theorem dand_eq_iff (a b : Device) : Device.dand a b = b.bits ↔ a = b := by
  cases a <;> cases b <;> decide

theorem dand_none_ne (a : Device) (h : a ≠ Device.none) :
    Device.dand a Device.none ≠ Device.none.bits := by
  cases a <;> first | exact absurd rfl h | decide

theorem appendLast_ne_nil (l : List (Device × List String)) (n : String)
    (h : l ≠ []) : appendLast l n ≠ [] := by
  match l with
  | [(d, run)] => simp [appendLast]
  | e :: e1 :: rest => simp [appendLast]

theorem appendLast_append (acc l0 : List (Device × List String)) (n : String)
    (h : l0 ≠ []) : appendLast (acc ++ l0) n = acc ++ appendLast l0 n := by
  induction acc with
  | nil => rfl
  | cons p acc' ih =>
      obtain ⟨y, ys, hy⟩ := List.exists_cons_of_ne_nil
        (show acc' ++ l0 ≠ [] by simp [h])
      show appendLast (p :: (acc' ++ l0)) n = p :: (acc' ++ appendLast l0 n)
      rw [hy, show appendLast (p :: y :: ys) n = p :: appendLast (y :: ys) n
        from rfl, ← hy, ih]

theorem deviceSplitGo_append (sts : List (String × ComputeModuleState))
    (l : List String) (acc l0 : List (Device × List String))
    (lastD : Device) (lastC : Nat) (h : l0 ≠ []) :
    deviceSplitGo sts (acc ++ l0) lastD lastC l =
      acc ++ deviceSplitGo sts l0 lastD lastC l := by
  induction l generalizing l0 lastD lastC with
  | nil => rfl
  | cons n rest ih =>
      show deviceSplitGo sts (appendLast _ n) _ _ rest =
        acc ++ deviceSplitGo sts (appendLast _ n) _ _ rest
      by_cases hc : Device.dand (stateOf sts n).device lastD ≠ lastD.bits ∨
          (stateOf sts n).clusterId ≠ lastC
      · rw [if_pos hc, if_pos hc, List.append_assoc,
          appendLast_append acc (l0 ++ [((stateOf sts n).device, [])]) n
            (by simp)]
        exact ih _ _ _ (appendLast_ne_nil _ _ (by simp))
      · rw [if_neg hc, if_neg hc, appendLast_append acc l0 n h]
        exact ih _ _ _ (appendLast_ne_nil _ _ h)

theorem deviceSplitGo_chunkGo (sts : List (String × ComputeModuleState))
    (l : List String) (d : Device) (c : Nat) (run : List String)
    (hdev : ∀ n ∈ l, (stateOf sts n).device ≠ Device.none)
    (hd : d ≠ Device.none) :
    deviceSplitGo sts [(d, run)] d c l = chunkGo sts d c run l := by
  induction l generalizing d c run with
  | nil => rfl
  | cons n rest ih =>
      by_cases hsame : (stateOf sts n).device = d ∧ (stateOf sts n).clusterId = c
      · have hc : ¬(Device.dand (stateOf sts n).device d ≠ d.bits ∨
            (stateOf sts n).clusterId ≠ c) := by
          push_neg
          exact ⟨(dand_eq_iff _ _).mpr hsame.1, hsame.2⟩
        show deviceSplitGo sts (appendLast _ n) _ _ rest = _
        rw [if_neg hc]
        show deviceSplitGo sts [(d, run ++ [n])] (stateOf sts n).device
          (stateOf sts n).clusterId rest = chunkGo sts d c run (n :: rest)
        rw [hsame.1, hsame.2]
        rw [show chunkGo sts d c run (n :: rest) =
          (if (stateOf sts n).device = d ∧ (stateOf sts n).clusterId = c then
            chunkGo sts d c (run ++ [n]) rest
          else (d, run) :: chunkGo sts (stateOf sts n).device
            (stateOf sts n).clusterId [n] rest) from rfl]
        rw [if_pos hsame]
        exact ih d c (run ++ [n])
          (fun m hm => hdev m (List.mem_cons_of_mem _ hm)) hd
      · have hc : Device.dand (stateOf sts n).device d ≠ d.bits ∨
            (stateOf sts n).clusterId ≠ c := by
          by_cases h1 : (stateOf sts n).device = d
          · exact Or.inr (fun h2 => hsame ⟨h1, h2⟩)
          · exact Or.inl (fun he => h1 ((dand_eq_iff _ _).mp he))
        show deviceSplitGo sts (appendLast _ n) _ _ rest = _
        rw [if_pos hc]
        show deviceSplitGo sts
          (appendLast ([(d, run)] ++ [((stateOf sts n).device, [])]) n)
          (stateOf sts n).device (stateOf sts n).clusterId rest = _
        rw [appendLast_append [(d, run)] [((stateOf sts n).device, [])] n
          (by simp)]
        rw [show appendLast [((stateOf sts n).device, [])] n =
          [((stateOf sts n).device, [n])] from rfl]
        rw [deviceSplitGo_append sts rest [(d, run)]
          [((stateOf sts n).device, [n])] _ _ (by simp)]
        rw [show chunkGo sts d c run (n :: rest) =
          (if (stateOf sts n).device = d ∧ (stateOf sts n).clusterId = c then
            chunkGo sts d c (run ++ [n]) rest
          else (d, run) :: chunkGo sts (stateOf sts n).device
            (stateOf sts n).clusterId [n] rest) from rfl]
        rw [if_neg hsame]
        rw [ih (stateOf sts n).device (stateOf sts n).clusterId [n]
          (fun m hm => hdev m (List.mem_cons_of_mem _ hm))
          (hdev n (List.mem_cons_self n rest))]
        rfl

theorem chunkGo_devices (sts : List (String × ComputeModuleState))
    (l : List String) (d : Device) (c : Nat) (run : List String)
    (hrun : ∀ n ∈ run, (stateOf sts n).device = d) :
    ∀ e ∈ chunkGo sts d c run l, ∀ n ∈ e.2, (stateOf sts n).device = e.1 := by
  induction l generalizing d c run with
  | nil =>
      intro e he n hn
      rw [show chunkGo sts d c run [] = [(d, run)] from rfl,
        List.mem_singleton] at he
      subst he
      exact hrun n hn
  | cons m rest ih =>
      intro e he n hn
      rw [show chunkGo sts d c run (m :: rest) =
        (if (stateOf sts m).device = d ∧ (stateOf sts m).clusterId = c then
          chunkGo sts d c (run ++ [m]) rest
        else (d, run) :: chunkGo sts (stateOf sts m).device
          (stateOf sts m).clusterId [m] rest) from rfl] at he
      by_cases hsame : (stateOf sts m).device = d ∧ (stateOf sts m).clusterId = c
      · rw [if_pos hsame] at he
        refine ih d c (run ++ [m]) ?_ e he n hn
        intro q hq
        rcases List.mem_append.mp hq with hq | hq
        · exact hrun q hq
        · rw [List.mem_singleton.mp hq]
          exact hsame.1
      · rw [if_neg hsame] at he
        rcases List.mem_cons.mp he with he | he
        · subst he
          exact hrun n hn
        · refine ih (stateOf sts m).device (stateOf sts m).clusterId [m] ?_
            e he n hn
          intro q hq
          rw [List.mem_singleton.mp hq]

/-- Device-run locality, claim C5.  For any module map and execution order
whose modules carry a concrete device (not the None tag), the source's
device split equals the spec-worded grouping — a new (device, run) entry
starts exactly when the module's device differs from the previous
module's device or its cluster id differs — and every module of an entry
carries exactly that entry's device tag. -/
theorem deviceSplit_locality (sts : List (String × ComputeModuleState))
    (exec : List String)
    (hdev : ∀ n ∈ exec, (stateOf sts n).device ≠ Device.none) :
    deviceSplit sts exec = chunkRuns sts exec ∧
    ∀ e ∈ deviceSplit sts exec, ∀ n ∈ e.2,
      (stateOf sts n).device = e.1 := by
  have hmain : deviceSplit sts exec = chunkRuns sts exec := by
    cases exec with
    | nil => rfl
    | cons n rest =>
        have hc : Device.dand (stateOf sts n).device Device.none ≠
            Device.none.bits ∨ (stateOf sts n).clusterId ≠ 0 :=
          Or.inl (dand_none_ne _ (hdev n (List.mem_cons_self n rest)))
        show deviceSplitGo sts (appendLast _ n) _ _ rest = _
        rw [if_pos hc]
        rw [show appendLast ([] ++ [((stateOf sts n).device, [])]) n =
          [((stateOf sts n).device, [n])] from rfl]
        exact deviceSplitGo_chunkGo sts rest (stateOf sts n).device
          (stateOf sts n).clusterId [n]
          (fun m hm => hdev m (List.mem_cons_of_mem _ hm))
          (hdev n (List.mem_cons_self n rest))
  refine ⟨hmain, ?_⟩
  rw [hmain]
  cases exec with
  | nil => intro e he; cases he
  | cons n rest =>
      exact chunkGo_devices sts rest (stateOf sts n).device
        (stateOf sts n).clusterId [n]
        (fun q hq => by rw [List.mem_singleton.mp hq])

/-- Witness for claim C5 at a concrete execution order. -/
theorem deviceSplit_locality_witness :
    (∀ n ∈ ["a", "b"], (stateOf chainSts n).device ≠ Device.none) ∧
    (deviceSplit chainSts ["a", "b"] = chunkRuns chainSts ["a", "b"] ∧
     ∀ e ∈ deviceSplit chainSts ["a", "b"], ∀ n ∈ e.2,
       (stateOf chainSts n).device = e.1) :=
  ⟨by decide, deviceSplit_locality chainSts ["a", "b"] (by decide)⟩

/-! ## Claim C3 — externally-wired chaining between adjacent executors -/

theorem mem_natSetInsert_of_mem (l : List Nat) (x y : Nat) (h : y ∈ l) :
    y ∈ natSetInsert l x := by
  unfold natSetInsert
  by_cases hx : x ∈ l
  · rwa [if_pos hx]
  · rw [if_neg hx]
    exact List.mem_append_left _ h

theorem mem_foldl_natSetInsert_left (l : List Nat) (acc : List Nat) (y : Nat)
    (h : y ∈ acc) : y ∈ l.foldl natSetInsert acc := by
  induction l generalizing acc with
  | nil => exact h
  | cons x rest ih =>
      exact ih _ (mem_natSetInsert_of_mem acc x y h)

theorem mem_foldl_natSetInsert_right (l : List Nat) (acc : List Nat)
    (y : Nat) (h : y ∈ l) : y ∈ l.foldl natSetInsert acc := by
  induction l generalizing acc with
  | nil => cases h
  | cons x rest ih =>
      rw [List.foldl_cons]
      rcases List.mem_cons.mp h with h | h
      · subst h
        refine mem_foldl_natSetInsert_left rest _ y ?_
        unfold natSetInsert
        by_cases hx : y ∈ acc
        · rwa [if_pos hx]
        · rw [if_neg hx]
          exact List.mem_append_right _ (List.mem_singleton.mpr rfl)
      · exact ih _ h

theorem chainExtOut_wiredOutputs (p g : Graph) :
    (chainExtOut p g).wiredOutputs = p.wiredOutputs := rfl

theorem chainExtIn_wiredInputs (p g : Graph) :
    (chainExtIn p g).wiredInputs = g.wiredInputs := rfl

theorem chainExtIn_chainExtOut (p g : Graph) :
    chainExtIn (chainExtOut p g) = chainExtIn p :=
  funext (fun _ => rfl)

/-- The fold over chainStep splits into the previousGraph accumulation and
the map of externally-wired-input updates, all computed against the first
executor (chainExtOut never touches the wired outputs the intersections
read). -/
theorem chainStep_fold (rest : List Graph) (p : Graph) (acc : List Graph) :
    rest.foldl chainStep (p, acc) =
      (rest.foldl chainExtOut p, acc ++ rest.map (chainExtIn p)) := by
  induction rest generalizing p acc with
  | nil => simp
  | cons g t ih =>
      rw [List.foldl_cons, List.foldl_cons]
      rw [show chainStep (p, acc) g =
        (chainExtOut p g, acc ++ [chainExtIn p g]) from rfl]
      rw [ih, List.map_cons, chainExtIn_chainExtOut, List.append_assoc]
      rfl

theorem foldl_chainExtOut_wiredOutputs (rest : List Graph) (p : Graph) :
    (rest.foldl chainExtOut p).wiredOutputs = p.wiredOutputs := by
  induction rest generalizing p with
  | nil => rfl
  | cons g t ih =>
      rw [List.foldl_cons, ih, chainExtOut_wiredOutputs]

theorem foldl_chainExtOut_extOut_mono (rest : List Graph) (p : Graph)
    (L : Nat) (h : L ∈ p.externallyWiredOutputs) :
    L ∈ (rest.foldl chainExtOut p).externallyWiredOutputs := by
  induction rest generalizing p with
  | nil => exact h
  | cons g t ih =>
      rw [List.foldl_cons]
      exact ih _ (mem_foldl_natSetInsert_left _ _ _ h)

theorem foldl_chainExtOut_extOut_of_mem (rest : List Graph) (p g : Graph)
    (L : Nat) (hg : g ∈ rest) (hL : L ∈ chainCommon p g) :
    L ∈ (rest.foldl chainExtOut p).externallyWiredOutputs := by
  induction rest generalizing p with
  | nil => cases hg
  | cons g2 t ih =>
      rw [List.foldl_cons]
      rcases List.mem_cons.mp hg with h | h
      · subst h
        exact foldl_chainExtOut_extOut_mono t _ L
          (mem_foldl_natSetInsert_right _ _ _ hL)
      · exact ih _ h hL

theorem getD_map_chainExtIn (g0 : Graph) (l : List Graph) (j : Nat)
    (h : j < l.length) :
    (l.map (chainExtIn g0)).getD j defGraph =
      chainExtIn g0 (l.getD j defGraph) := by
  induction l generalizing j with
  | nil => exact absurd h (Nat.not_lt_zero j)
  | cons a t ih =>
      cases j with
      | zero => rfl
      | succ k =>
          rw [List.map_cons, List.getD_cons_succ, List.getD_cons_succ]
          exact ih k (Nat.lt_of_succ_lt_succ h)

theorem getD_mem_graphs (l : List Graph) (j : Nat) (h : j < l.length) :
    l.getD j defGraph ∈ l := by
  induction l generalizing j with
  | nil => exact absurd h (Nat.not_lt_zero j)
  | cons a t ih =>
      cases j with
      | zero => exact List.mem_cons_self a t
      | succ k =>
          exact List.mem_cons_of_mem a (ih k (Nat.lt_of_succ_lt_succ h))

/-- Externally-wired chaining, claim C3 as amended: the source only
assigns previousGraph when it is still null, so the chained pairs are
(G_0, G_i) for every i ≥ 1 — not the adjacent pairs the spec describes.
After createExecutionGraphs, every locale hash lying in both the wired
outputs of the FIRST executor and the wired inputs of a later executor is
registered as an externally wired output on the first executor and as an
externally wired input on that later executor. -/
theorem createExecutionGraphs_external_wiring (s : SchedulerState)
    (i L : Nat) (hi : 1 ≤ i)
    (hlt : i < (createExecutionGraphs s).graphs.length)
    (hout : L ∈ (((createExecutionGraphs s).graphs.getD 0
      defGraph)).wiredOutputs)
    (hin : L ∈ (((createExecutionGraphs s).graphs.getD i
      defGraph)).wiredInputs) :
    L ∈ (((createExecutionGraphs s).graphs.getD 0
      defGraph)).externallyWiredOutputs ∧
    L ∈ (((createExecutionGraphs s).graphs.getD i
      defGraph)).externallyWiredInputs := by
  have hg : (createExecutionGraphs s).graphs =
      chainGraphs (s.deviceExecutionOrder.map
        (fun e => buildGraph s.validComputeModuleStates e.1 e.2)) := rfl
  rw [hg] at hlt hout hin ⊢
  cases hcase : s.deviceExecutionOrder.map
      (fun e => buildGraph s.validComputeModuleStates e.1 e.2) with
  | nil =>
      rw [hcase, show chainGraphs ([] : List Graph) = [] from rfl,
        List.length_nil] at hlt
      exact absurd hlt (Nat.not_lt_zero i)
  | cons g0 rest =>
      rw [hcase] at hlt hout hin
      rw [show chainGraphs (g0 :: rest) =
        (rest.foldl chainStep (g0, [])).1 :: (rest.foldl chainStep (g0, [])).2
        from rfl] at hlt hout hin ⊢
      rw [chainStep_fold, List.nil_append] at hlt hout hin ⊢
      obtain ⟨j, rfl⟩ : ∃ j, i = j + 1 := ⟨i - 1, by omega⟩
      rw [List.getD_cons_zero] at hout
      rw [List.getD_cons_succ] at hin
      rw [List.length_cons, List.length_map] at hlt
      have hj : j < rest.length := by omega
      rw [getD_map_chainExtIn g0 rest j hj] at hin
      have hout2 : L ∈ g0.wiredOutputs := by
        rw [foldl_chainExtOut_wiredOutputs] at hout
        exact hout
      have hin2 : L ∈ (rest.getD j defGraph).wiredInputs := hin
      have hcom : L ∈ chainCommon g0 (rest.getD j defGraph) := by
        rw [chainCommon, List.mem_filter]
        exact ⟨hout2, by simpa using hin2⟩
      constructor
      · rw [List.getD_cons_zero]
        exact foldl_chainExtOut_extOut_of_mem rest g0 _ L
          (getD_mem_graphs rest j hj) hcom
      · rw [List.getD_cons_succ, getD_map_chainExtIn g0 rest j hj]
        exact mem_foldl_natSetInsert_right _ _ _ hcom

/-- Witness for claim C3 on the device-boundary scenario: the hash
produced by the first executor and consumed by the second is externally
wired on both. -/
theorem createExecutionGraphs_external_wiring_witness :
    (1 ≤ 1 ∧
     1 < (createExecutionGraphs schedCrossDev).graphs.length ∧
     10 ∈ (((createExecutionGraphs schedCrossDev).graphs.getD 0
       defGraph)).wiredOutputs ∧
     10 ∈ (((createExecutionGraphs schedCrossDev).graphs.getD 1
       defGraph)).wiredInputs) ∧
    (10 ∈ (((createExecutionGraphs schedCrossDev).graphs.getD 0
       defGraph)).externallyWiredOutputs ∧
     10 ∈ (((createExecutionGraphs schedCrossDev).graphs.getD 1
       defGraph)).externallyWiredInputs) :=
  ⟨⟨by decide, by decide, by decide, by decide⟩,
    createExecutionGraphs_external_wiring schedCrossDev 1 10
      (by decide) (by decide) (by decide) (by decide)⟩

/-- Counterexample to claim C3 as stated: on the three-executor
device-boundary chain a(CPU) → b(CUDA) → c(CPU), locale hash 20 lies in
the wired outputs of the second executor and the wired inputs of the
third — an adjacent pair — yet it is externally wired on neither side:
the loop only ever intersects against the first executor, and
{10} ∩ {20} is empty. -/
theorem c3_counterexample :
    20 ∈ (schedCrossDev.graphs.getD 1 defGraph).wiredOutputs ∧
    20 ∈ (schedCrossDev.graphs.getD 2 defGraph).wiredInputs ∧
    20 ∉ (schedCrossDev.graphs.getD 1 defGraph).externallyWiredOutputs ∧
    20 ∉ (schedCrossDev.graphs.getD 2 defGraph).externallyWiredInputs := by
  decide

/-! ## Claim C1 — infrastructure: counting the ordering loop's decrements -/

theorem mem_names_of_alookup (sts : List (String × ComputeModuleState))
    (n : String) (st : ComputeModuleState) (h : alookup sts n = some st) :
    n ∈ names sts := by
  induction sts with
  | nil => simp [alookup] at h
  | cons p rest ih =>
      by_cases hp : p.1 = n
      · rw [show names (p :: rest) = p.1 :: names rest from rfl]
        exact hp ▸ List.mem_cons_self p.1 _
      · simp only [alookup, if_neg hp] at h
        exact List.mem_cons_of_mem _ (ih h)

theorem alookup_isSome_of_mem_names (sts : List (String × ComputeModuleState))
    (n : String) (h : n ∈ names sts) : ∃ st, alookup sts n = some st := by
  induction sts with
  | nil => cases h
  | cons p rest ih =>
      by_cases hp : p.1 = n
      · exact ⟨p.2, by simp [alookup, hp]⟩
      · rw [show names (p :: rest) = p.1 :: names rest from rfl] at h
        rcases List.mem_cons.mp h with h | h
        · exact absurd h.symm hp
        · obtain ⟨st, hst⟩ := ih h
          exact ⟨st, by simp [alookup, hp, hst]⟩

theorem stateOf_eq_of_mem (sts : List (String × ComputeModuleState))
    (p : String × ComputeModuleState) (hnd : (names sts).Nodup)
    (hp : p ∈ sts) : stateOf sts p.1 = p.2 := by
  unfold stateOf
  rw [alookup_of_mem_nodup sts p hnd hp]
  rfl

theorem sum_map_le_of_nodup_subset (f : String → Nat) (l1 l2 : List String)
    (h1 : l1.Nodup) (h2 : l2.Nodup) (hs : ∀ x ∈ l1, x ∈ l2) :
    (l1.map f).sum ≤ (l2.map f).sum := by
  rw [← List.sum_toFinset f h1, ← List.sum_toFinset f h2]
  refine Finset.sum_le_sum_of_subset ?_
  intro x hx
  rw [List.mem_toFinset] at hx
  rw [List.mem_toFinset]
  exact hs x hx

theorem count_map_eq_countP {α : Type} (l : List α) (f : α → Nat) (L : Nat) :
    (l.map f).count L = l.countP (fun x => decide (f x = L)) := by
  induction l with
  | nil => rfl
  | cons a rest ih =>
      rw [List.map_cons, List.count_cons, List.countP_cons, ih]
      by_cases h : f a = L
      · simp [h]
      · simp [h]

theorem sum_map_map_flatMap {α β : Type} (l : List α) (f : α → List β)
    (g : β → Nat) :
    (((l.flatMap f).map g)).sum = (l.map (fun a => ((f a).map g).sum)).sum := by
  induction l with
  | nil => rfl
  | cons a rest ih =>
      rw [List.flatMap_cons, List.map_append, List.sum_append, ih,
        List.map_cons, List.sum_cons]

theorem sum_map_indicator {β : Type} (B : List β) (c : β → Bool) :
    (B.map (fun b => if c b then 1 else 0)).sum = B.countP c := by
  induction B with
  | nil => rfl
  | cons b rest ih =>
      rw [List.map_cons, List.sum_cons, List.countP_cons, ih]
      by_cases h : c b
      · simp [h, Nat.add_comm]
      · simp [h]

theorem sum_countP_comm {α β : Type} (A : List α) (B : List β)
    (R : α → β → Bool) :
    (A.map (fun a => B.countP (fun b => R a b))).sum =
      (B.map (fun b => A.countP (fun a => R a b))).sum := by
  induction A with
  | nil =>
      rw [List.map_nil, List.sum_nil]
      symm
      rw [List.sum_eq_zero_iff]
      intro x hx
      obtain ⟨b, _, hbx⟩ := List.mem_map.mp hx
      rw [← hbx, List.countP_nil]
  | cons a A' ih =>
      rw [List.map_cons, List.sum_cons, ih]
      have : ∀ b, A'.countP (fun a => R a b) + (if R a b then 1 else 0) =
          (a :: A').countP (fun a => R a b) := by
        intro b
        rw [List.countP_cons]
      rw [show (B.map (fun b => (a :: A').countP (fun a => R a b))) =
        B.map (fun b => A'.countP (fun a => R a b) + (if R a b then 1 else 0))
        from List.map_congr_left (fun b _ => (this b).symm)]
      rw [List.sum_map_add, sum_map_indicator]
      exact Nat.add_comm _ _

theorem count_filterMap_if {α : Type} (l : List α) (P : α → Prop)
    [DecidablePred P] (m n : String) :
    (l.filterMap (fun q => if P q then some n else Option.none)).count m =
      if n = m then l.countP (fun q => decide (P q)) else 0 := by
  induction l with
  | nil => simp [List.count]
  | cons a rest ih =>
      rw [List.filterMap_cons]
      by_cases h : P a
      · rw [if_pos h, List.count_cons, ih, List.countP_cons]
        by_cases hnm : n = m
        · simp [hnm, h]
        · simp [hnm]
      · rw [if_neg h, ih, List.countP_cons]
        by_cases hnm : n = m
        · simp [hnm, h]
        · simp [hnm]

theorem count_inputConsumers_zero (sts : List (String × ComputeModuleState))
    (m : String) (hm : m ∉ names sts) (L : Nat) :
    (inputConsumers sts L).count m = 0 := by
  induction sts with
  | nil => rfl
  | cons p rest ih =>
      rw [show inputConsumers (p :: rest) L =
        p.2.activeInputs.filterMap (fun q =>
          if q.2.localeHash = L then some p.1 else Option.none) ++
          inputConsumers rest L from rfl]
      rw [List.count_append, count_filterMap_if]
      rw [show names (p :: rest) = p.1 :: names rest from rfl] at hm
      have hne : ¬p.1 = m := fun hh => hm (hh ▸ List.mem_cons_self p.1 _)
      rw [if_neg hne]
      rw [ih (fun hh => hm (List.mem_cons_of_mem _ hh))]

theorem count_inputConsumers (sts : List (String × ComputeModuleState))
    (hkeys : (names sts).Nodup) (L : Nat) (m : String) :
    (inputConsumers sts L).count m =
      (stateOf sts m).activeInputs.countP
        (fun q => decide (q.2.localeHash = L)) := by
  induction sts with
  | nil => rfl
  | cons p rest ih =>
      rw [show names (p :: rest) = p.1 :: names rest from rfl,
        List.nodup_cons] at hkeys
      rw [show inputConsumers (p :: rest) L =
        p.2.activeInputs.filterMap (fun q =>
          if q.2.localeHash = L then some p.1 else Option.none) ++
          inputConsumers rest L from rfl]
      rw [List.count_append, count_filterMap_if]
      by_cases hp : p.1 = m
      · rw [if_pos hp]
        rw [show stateOf (p :: rest) m = p.2 by
          unfold stateOf; rw [show alookup (p :: rest) m = some p.2 by
            simp [alookup, hp]]; rfl]
        rw [count_inputConsumers_zero rest m (fun hh => hkeys.1 (hp ▸ hh)) L]
        exact Nat.add_zero _
      · rw [if_neg hp]
        rw [show stateOf (p :: rest) m = stateOf rest m by
          unfold stateOf; rw [show alookup (p :: rest) m = alookup rest m by
            simp [alookup, hp]]]
        rw [ih hkeys.2]
        exact Nat.zero_add _

theorem countP_eq_count (A : List Nat) (a : Nat) :
    A.countP (fun x => decide (a = x)) = A.count a := by
  rw [List.count_eq_countP]
  refine List.countP_congr ?_
  intro x _
  rw [decide_eq_true_iff, beq_iff_eq]
  exact eq_comm

theorem count_emitHits (sts : List (String × ComputeModuleState))
    (hkeys : (names sts).Nodup) (x m : String) :
    (emitHits sts x).count m =
      ((outLocHashes (stateOf sts x)).map (fun L =>
        (stateOf sts m).activeInputs.countP
          (fun q => decide (q.2.localeHash = L)))).sum := by
  unfold emitHits
  cases hl : alookup sts x with
  | none =>
      rw [show stateOf sts x = defCMS by unfold stateOf; rw [hl]; rfl]
      rfl
  | some st =>
      rw [show stateOf sts x = st by unfold stateOf; rw [hl]; rfl]
      rw [List.count_flatMap]
      rw [show (outLocHashes st).map (fun L =>
          (stateOf sts m).activeInputs.countP
            (fun q => decide (q.2.localeHash = L))) =
        st.activeOutputs.map ((fun L =>
          (stateOf sts m).activeInputs.countP
            (fun q => decide (q.2.localeHash = L))) ∘
          (fun q => q.2.localeHash)) from List.map_map _ _ _]
      refine congrArg List.sum (List.map_congr_left ?_)
      intro o _
      simp only [Function.comp_apply]
      exact count_inputConsumers sts hkeys o.2.localeHash m

theorem sumHits_eq (sts : List (String × ComputeModuleState))
    (hkeys : (names sts).Nodup) (exec : List String) (m : String) :
    sumHits sts exec m =
      ((stateOf sts m).activeInputs.map (fun q =>
        (exec.flatMap (fun p => outLocHashes (stateOf sts p))).count
          q.2.localeHash)).sum := by
  unfold sumHits
  rw [List.map_congr_left (fun p _ => count_emitHits sts hkeys p m)]
  rw [← sum_map_map_flatMap exec (fun p => outLocHashes (stateOf sts p))
    (fun L => (stateOf sts m).activeInputs.countP
      (fun q => decide (q.2.localeHash = L)))]
  rw [sum_countP_comm]
  refine congrArg List.sum (List.map_congr_left ?_)
  intro q _
  exact countP_eq_count _ _

theorem prod_count_le_one (sts : List (String × ComputeModuleState))
    (hkeys : (names sts).Nodup)
    (huniq : (sts.flatMap (fun p => outLocHashes p.2)).Nodup)
    (exec : List String) (hnd : exec.Nodup)
    (hsub : ∀ p ∈ exec, p ∈ names sts) (L : Nat) :
    (exec.flatMap (fun p => outLocHashes (stateOf sts p))).count L ≤ 1 := by
  rw [List.count_flatMap]
  have hle := sum_map_le_of_nodup_subset
    (fun p => (outLocHashes (stateOf sts p)).count L) exec (names sts)
    hnd (hkeys) hsub
  refine le_trans hle ?_
  have : (names sts).map (fun p => (outLocHashes (stateOf sts p)).count L) =
      sts.map (fun p => (outLocHashes p.2).count L) := by
    unfold names
    rw [List.map_map]
    refine List.map_congr_left ?_
    intro p hp
    simp only [Function.comp_apply]
    rw [stateOf_eq_of_mem sts p hkeys hp]
  rw [this]
  have hcf : (sts.map (fun p => (outLocHashes p.2).count L)).sum =
      (sts.flatMap (fun p => outLocHashes p.2)).count L := by
    rw [List.count_flatMap]
    rfl
  rw [hcf]
  exact List.nodup_iff_count_le_one.mp huniq L

theorem sum_map_le_length {α : Type} (l : List α) (f : α → Nat)
    (hle : ∀ a ∈ l, f a ≤ 1) : (l.map f).sum ≤ l.length := by
  induction l with
  | nil => exact Nat.le_refl 0
  | cons a rest ih =>
      rw [List.map_cons, List.sum_cons, List.length_cons]
      have h1 := hle a (List.mem_cons_self a rest)
      have h2 := ih (fun b hb => hle b (List.mem_cons_of_mem _ hb))
      omega

theorem all_eq_one_of_sum_eq_length {α : Type} (l : List α) (f : α → Nat)
    (hle : ∀ a ∈ l, f a ≤ 1) (hsum : (l.map f).sum = l.length) :
    ∀ a ∈ l, f a = 1 := by
  induction l with
  | nil => intro a ha; cases ha
  | cons a rest ih =>
      rw [List.map_cons, List.sum_cons, List.length_cons] at hsum
      have h1 := hle a (List.mem_cons_self a rest)
      have h2 := sum_map_le_length rest f
        (fun b hb => hle b (List.mem_cons_of_mem _ hb))
      have hfa : f a = 1 := by omega
      have hrest : (rest.map f).sum = rest.length := by omega
      intro b hb
      rcases List.mem_cons.mp hb with hb | hb
      · rw [hb]; exact hfa
      · exact ih (fun c hc => hle c (List.mem_cons_of_mem _ hc)) hrest b hb

theorem producers_mem_of_drained (sts : List (String × ComputeModuleState))
    (hkeys : (names sts).Nodup)
    (huniq : (sts.flatMap (fun p => outLocHashes p.2)).Nodup)
    (exec : List String) (hnd : exec.Nodup)
    (hsub : ∀ p ∈ exec, p ∈ names sts) (x : String)
    (hdr : sumHits sts exec x = d0 sts x) :
    ∀ q ∈ (stateOf sts x).activeInputs, ∀ p, p ∈ names sts →
      q.2.localeHash ∈ outLocHashes (stateOf sts p) → p ∈ exec := by
  intro q hq p hpmem hpl
  have hkey := sumHits_eq sts hkeys exec x
  rw [hdr] at hkey
  have hle1 : ∀ r ∈ (stateOf sts x).activeInputs,
      (exec.flatMap (fun p => outLocHashes (stateOf sts p))).count
        r.2.localeHash ≤ 1 :=
    fun r _ => prod_count_le_one sts hkeys huniq exec hnd hsub r.2.localeHash
  have hall := all_eq_one_of_sum_eq_length _ _ hle1 hkey.symm
  have hone := hall q hq
  by_contra hpnot
  have hnd' : (p :: exec).Nodup := List.nodup_cons.mpr ⟨hpnot, hnd⟩
  have hsub' : ∀ r ∈ p :: exec, r ∈ names sts := by
    intro r hr
    rcases List.mem_cons.mp hr with hr | hr
    · exact hr ▸ hpmem
    · exact hsub r hr
  have hbound := prod_count_le_one sts hkeys huniq (p :: exec) hnd' hsub'
    q.2.localeHash
  rw [List.flatMap_cons, List.count_append] at hbound
  have hp1 : 0 < (outLocHashes (stateOf sts p)).count q.2.localeHash :=
    List.count_pos_iff.mpr hpl
  omega

theorem u64dec_eq (v : Nat) (h1 : 1 ≤ v) (h2 : v < u64) :
    u64dec v = v - 1 := by
  have hv : v + (u64 - 1) = (v - 1) + u64 := by
    have : (0 : Nat) < u64 := by decide
    omega
  rw [u64dec, hv, Nat.add_mod_right]
  exact Nat.mod_eq_of_lt (by omega)

theorem hitFold_cons (m0 : String) (rest : List String)
    (dq : (String → Nat) × List String) :
    hitFold (m0 :: rest) dq = hitFold rest (hitOne dq m0) := rfl

theorem hitFold_spec (hits : List String) (deg : String → Nat)
    (q : List String)
    (hbud : ∀ m, hits.count m ≤ deg m)
    (hlt : ∀ m, deg m < u64)
    (hq : q.Nodup) :
    (∀ m, (hitFold hits (deg, q)).1 m = deg m - hits.count m) ∧
    (hitFold hits (deg, q)).2.Nodup ∧
    (∀ m, m ∈ (hitFold hits (deg, q)).2 ↔
      m ∈ q ∨ (0 < deg m ∧ hits.count m = deg m)) := by
  induction hits generalizing deg q with
  | nil =>
      refine ⟨fun m => by simp [hitFold], hq, fun m => ?_⟩
      rw [show (hitFold [] (deg, q)).2 = q from rfl]
      constructor
      · exact Or.inl
      · intro h
        rcases h with h | h
        · exact h
        · rw [List.count_nil] at h
          omega
  | cons m0 rest ih =>
      have hc1 : 1 ≤ deg m0 := by
        have := hbud m0
        rw [List.count_cons_self] at this
        omega
      have hdec : u64dec (deg m0) = deg m0 - 1 :=
        u64dec_eq (deg m0) hc1 (hlt m0)
      have hone : hitOne (deg, q) m0 =
          ((fun k => if k = m0 then deg m0 - 1 else deg k),
           if deg m0 - 1 = 0 then (if m0 ∈ q then q else q ++ [m0]) else q) := by
        unfold hitOne
        rw [show (deg, q).1 = deg from rfl, show (deg, q).2 = q from rfl, hdec]
      set deg' : String → Nat := fun k => if k = m0 then deg m0 - 1 else deg k
        with hdeg'
      set q' : List String :=
        if deg m0 - 1 = 0 then (if m0 ∈ q then q else q ++ [m0]) else q
        with hq'
      have hbud' : ∀ m, rest.count m ≤ deg' m := by
        intro m
        by_cases hm : m = m0
        · subst hm
          have := hbud m
          rw [List.count_cons_self] at this
          simp only [hdeg', if_pos rfl]
          omega
        · have := hbud m
          rw [List.count_cons, if_neg (by simp [Ne.symm hm])] at this
          simp only [hdeg', if_neg hm]
          omega
      have hlt' : ∀ m, deg' m < u64 := by
        intro m
        by_cases hm : m = m0
        · subst hm
          simp only [hdeg', if_pos rfl]
          have := hlt m
          omega
        · simp only [hdeg', if_neg hm]
          exact hlt m
      have hqnd' : q'.Nodup := by
        rw [hq']
        by_cases hz : deg m0 - 1 = 0
        · rw [if_pos hz]
          by_cases hmq : m0 ∈ q
          · rwa [if_pos hmq]
          · rw [if_neg hmq, List.nodup_append]
            exact ⟨hq, List.nodup_singleton m0,
              fun a ha hb => hmq ((List.mem_singleton.mp hb) ▸ ha)⟩
        · rwa [if_neg hz]
      have hmemq' : ∀ m, m ∈ q' ↔ m ∈ q ∨ (m = m0 ∧ deg m0 - 1 = 0) := by
        intro m
        rw [hq']
        by_cases hz : deg m0 - 1 = 0
        · rw [if_pos hz]
          by_cases hmq : m0 ∈ q
          · rw [if_pos hmq]
            constructor
            · exact Or.inl
            · intro h
              rcases h with h | h
              · exact h
              · exact h.1 ▸ hmq
          · rw [if_neg hmq, List.mem_append, List.mem_singleton]
            constructor
            · intro h
              rcases h with h | h
              · exact Or.inl h
              · exact Or.inr ⟨h, hz⟩
            · intro h
              rcases h with h | h
              · exact Or.inl h
              · exact Or.inr h.1
        · rw [if_neg hz]
          constructor
          · exact Or.inl
          · intro h
            rcases h with h | h
            · exact h
            · exact absurd h.2 hz
      obtain ⟨ih1, ih2, ih3⟩ := ih deg' q' hbud' hlt' hqnd'
      rw [hitFold_cons, hone]
      refine ⟨?_, ih2, ?_⟩
      · intro m
        rw [ih1 m]
        by_cases hm : m = m0
        · subst hm
          simp only [hdeg', if_pos rfl, List.count_cons_self]
          omega
        · simp only [hdeg', if_neg hm]
          rw [List.count_cons, if_neg (by simp [Ne.symm hm]), Nat.add_zero]
      · intro m
        rw [ih3 m, hmemq' m]
        by_cases hm : m = m0
        · subst hm
          simp only [hdeg', if_pos rfl, List.count_cons_self]
          constructor
          · intro h
            rcases h with (h | h) | h
            · exact Or.inl h
            · refine Or.inr ⟨by omega, ?_⟩
              have := hbud m
              rw [List.count_cons_self] at this
              omega
            · exact Or.inr ⟨by omega, by omega⟩
          · intro h
            rcases h with h | h
            · exact Or.inl (Or.inl h)
            · by_cases hz : deg m - 1 = 0
              · exact Or.inl (Or.inr ⟨by trivial, hz⟩)
              · exact Or.inr ⟨by omega, by omega⟩
        · simp only [hdeg', if_neg hm]
          rw [List.count_cons, if_neg (by simp [Ne.symm hm]), Nat.add_zero]
          constructor
          · intro h
            rcases h with (h | h) | h
            · exact Or.inl h
            · exact absurd h.1 hm
            · exact Or.inr (by omega)
          · intro h
            rcases h with h | h
            · exact Or.inl (Or.inl h)
            · exact Or.inr (by omega)

theorem foldl_flatMap {α β γ : Type} (l : List α) (f : α → List β)
    (g : γ → β → γ) (init : γ) :
    (l.flatMap f).foldl g init =
      l.foldl (fun acc a => (f a).foldl g acc) init := by
  induction l generalizing init with
  | nil => rfl
  | cons a rest ih =>
      rw [List.flatMap_cons, List.foldl_append, List.foldl_cons, ih]

theorem relax_eq (sts : List (String × ComputeModuleState)) (x : String)
    (st : ComputeModuleState) (hl : alookup sts x = some st)
    (ks : KahnState) :
    relax sts x ks =
      { ks with
        degrees := (hitFold (emitHits sts x) (ks.degrees, ks.queue)).1,
        queue := (hitFold (emitHits sts x) (ks.degrees, ks.queue)).2 } := by
  unfold relax
  rw [hl]
  rw [show emitHits sts x = st.activeOutputs.flatMap
    (fun o => inputConsumers sts o.2.localeHash) by unfold emitHits; rw [hl]]
  unfold hitFold
  rw [foldl_flatMap]

theorem relax_none (sts : List (String × ComputeModuleState)) (x : String)
    (hl : alookup sts x = Option.none) (ks : KahnState) :
    relax sts x ks = ks := by
  unfold relax
  rw [hl]

theorem mem_names_of_mem_inputConsumers
    (sts : List (String × ComputeModuleState)) (L : Nat) (y : String)
    (h : y ∈ inputConsumers sts L) : y ∈ names sts := by
  unfold inputConsumers at h
  obtain ⟨p, hp, hy⟩ := List.mem_flatMap.mp h
  obtain ⟨q, _, hq⟩ := List.mem_filterMap.mp hy
  by_cases hc : q.2.localeHash = L
  · rw [if_pos hc, Option.some_inj] at hq
    exact hq ▸ List.mem_map_of_mem Prod.fst hp
  · rw [if_neg hc] at hq
    cases hq

theorem mem_names_of_mem_emitHits (sts : List (String × ComputeModuleState))
    (x y : String) (h : y ∈ emitHits sts x) : y ∈ names sts := by
  unfold emitHits at h
  cases hl : alookup sts x with
  | none => rw [hl] at h; cases h
  | some st =>
      rw [hl] at h
      obtain ⟨o, _, hy⟩ := List.mem_flatMap.mp h
      exact mem_names_of_mem_inputConsumers sts o.2.localeHash y hy

theorem sumHits_append_single (sts : List (String × ComputeModuleState))
    (exec : List String) (x m : String) :
    sumHits sts (exec ++ [x]) m =
      sumHits sts exec m + (emitHits sts x).count m := by
  unfold sumHits
  rw [List.map_append, List.sum_append, List.map_singleton, List.sum_cons,
    List.sum_nil]
  simp

theorem sumHits_le_d0 (sts : List (String × ComputeModuleState))
    (hkeys : (names sts).Nodup)
    (huniq : (sts.flatMap (fun p => outLocHashes p.2)).Nodup)
    (exec : List String) (hnd : exec.Nodup)
    (hsub : ∀ p ∈ exec, p ∈ names sts) (m : String) :
    sumHits sts exec m ≤ d0 sts m := by
  rw [sumHits_eq sts hkeys exec m]
  unfold d0
  exact sum_map_le_length _ _ (fun q _ =>
    prod_count_le_one sts hkeys huniq exec hnd hsub q.2.localeHash)

theorem kahnStep_none_of_nil (sts : List (String × ComputeModuleState))
    (oracle : Nat → List String → List String) (stepIdx : Nat)
    (ks : KahnState) (h : ks.queue = []) :
    kahnStep sts oracle stepIdx ks = Option.none := by
  obtain ⟨Q, deg, ex, la⟩ := ks
  replace h : Q = [] := h
  subst h
  rfl

theorem kahnStep_preserves (sts : List (String × ComputeModuleState))
    (oracle : Nat → List String → List String) (stepIdx : Nat)
    (ks ks' : KahnState)
    (hkeys : (names sts).Nodup)
    (huniq : (sts.flatMap (fun p => outLocHashes p.2)).Nodup)
    (hsize : ∀ m, d0 sts m < u64)
    (hinv : KInv sts ks)
    (hstep : kahnStep sts oracle stepIdx ks = some ks') :
    KInv sts ks' := by
  by_cases hq0 : ks.queue = []
  · rw [kahnStep_none_of_nil sts oracle stepIdx ks hq0] at hstep
    cases hstep
  obtain ⟨x, d, _, hxq, heq⟩ := kahn_select_no_spin sts oracle stepIdx ks hq0
  rw [heq, Option.some_inj] at hstep
  subst hstep
  have hxnames : x ∈ names sts := hinv.queueMem x hxq
  obtain ⟨stx, hstx⟩ := alookup_isSome_of_mem_names sts x hxnames
  have hxexec : x ∉ ks.exec := fun hx => hinv.disj x hx hxq
  have hEnd : (ks.exec ++ [x]).Nodup := by
    rw [List.nodup_append]
    exact ⟨hinv.execNodup, List.nodup_singleton x,
      fun a ha hb => hxexec ((List.mem_singleton.mp hb) ▸ ha)⟩
  have hEsub : ∀ p ∈ ks.exec ++ [x], p ∈ names sts := by
    intro p hp
    rcases List.mem_append.mp hp with hp | hp
    · exact hinv.execMem p hp
    · exact (List.mem_singleton.mp hp) ▸ hxnames
  have hhitsLeE : ∀ m, sumHits sts (ks.exec ++ [x]) m ≤ d0 sts m :=
    sumHits_le_d0 sts hkeys huniq _ hEnd hEsub
  have hhitsLe : ∀ m, sumHits sts ks.exec m ≤ d0 sts m :=
    sumHits_le_d0 sts hkeys huniq _ hinv.execNodup hinv.execMem
  have hsumE : ∀ m, sumHits sts (ks.exec ++ [x]) m =
      sumHits sts ks.exec m + (emitHits sts x).count m :=
    fun m => sumHits_append_single sts ks.exec x m
  have hbud : ∀ m, (emitHits sts x).count m ≤ ks.degrees m := by
    intro m
    rw [hinv.degEq m]
    have h1 := hhitsLeE m
    rw [hsumE m] at h1
    have h2 := hhitsLe m
    omega
  have hlt : ∀ m, ks.degrees m < u64 := by
    intro m
    rw [hinv.degEq m]
    have := hsize m
    omega
  have hqnd : (ks.queue.erase x).Nodup := hinv.queueNodup.erase x
  obtain ⟨hf1, hf2, hf3⟩ := hitFold_spec (emitHits sts x) ks.degrees
    (ks.queue.erase x) hbud hlt hqnd
  have hdrx : sumHits sts ks.exec x = d0 sts x :=
    (hinv.drained x hxnames).mp (Or.inr hxq)
  have hcx : (emitHits sts x).count x = 0 := by
    have h1 := hhitsLeE x
    rw [hsumE x, hdrx] at h1
    omega
  rw [relax_eq sts x stx hstx
    { ks with queue := ks.queue.erase x, exec := ks.exec ++ [x], last := d }]
  refine ⟨hEnd, hf2, ?_, hEsub, ?_, ?_, ?_, ?_⟩
  · -- disj
    intro y hyE hyF
    replace hyF : y ∈ (hitFold (emitHits sts x)
        (ks.degrees, ks.queue.erase x)).2 := hyF
    replace hyE : y ∈ ks.exec ++ [x] := hyE
    rw [hf3 y] at hyF
    have hyd : sumHits sts ks.exec y = d0 sts y := by
      rcases List.mem_append.mp hyE with hy | hy
      · exact (hinv.drained y (hinv.execMem y hy)).mp (Or.inl hy)
      · rw [List.mem_singleton.mp hy]
        exact hdrx
    rcases hyF with hy | hy
    · rcases List.mem_append.mp hyE with hy2 | hy2
      · exact hinv.disj y hy2 (List.mem_of_mem_erase hy)
      · rw [List.mem_singleton.mp hy2] at hy
        exact hinv.queueNodup.not_mem_erase hy
    · rw [hinv.degEq y, hyd] at hy
      omega
  · -- queueMem
    intro y hy
    replace hy : y ∈ (hitFold (emitHits sts x)
        (ks.degrees, ks.queue.erase x)).2 := hy
    rw [hf3 y] at hy
    rcases hy with hy | hy
    · exact hinv.queueMem y (List.mem_of_mem_erase hy)
    · have hcnt : 0 < (emitHits sts x).count y := by omega
      exact mem_names_of_mem_emitHits sts x y
        (List.count_pos_iff.mp hcnt)
  · -- degEq
    intro m
    show (hitFold (emitHits sts x) (ks.degrees, ks.queue.erase x)).1 m =
      d0 sts m - sumHits sts (ks.exec ++ [x]) m
    rw [hf1 m, hinv.degEq m, hsumE m]
    have h1 := hhitsLeE m
    rw [hsumE m] at h1
    have h2 := hhitsLe m
    omega
  · -- drained
    intro m hm
    show (m ∈ ks.exec ++ [x] ∨ m ∈ (hitFold (emitHits sts x)
        (ks.degrees, ks.queue.erase x)).2) ↔
      sumHits sts (ks.exec ++ [x]) m = d0 sts m
    rw [hf3 m, hsumE m]
    by_cases hold : sumHits sts ks.exec m = d0 sts m
    · have hmemo : m ∈ ks.exec ∨ m ∈ ks.queue :=
        (hinv.drained m hm).mpr hold
      have hc0 : (emitHits sts x).count m = 0 := by
        have h1 := hhitsLeE m
        rw [hsumE m, hold] at h1
        omega
      constructor
      · intro _
        rw [hc0, hold]
        exact Nat.add_zero _
      · intro _
        rcases hmemo with hmem | hmem
        · exact Or.inl (List.mem_append_left _ hmem)
        · by_cases hmx : m = x
          · exact Or.inl (List.mem_append_right _
              (List.mem_singleton.mpr hmx))
          · exact Or.inr (Or.inl ((List.mem_erase_of_ne hmx).mpr hmem))
    · have hnmem : ¬(m ∈ ks.exec ∨ m ∈ ks.queue) :=
        fun h => hold ((hinv.drained m hm).mp h)
      have hmex : m ∉ ks.exec := fun h => hnmem (Or.inl h)
      have hmq : m ∉ ks.queue := fun h => hnmem (Or.inr h)
      have hmx : m ≠ x := fun h => hmq (h ▸ hxq)
      have hlt2 : sumHits sts ks.exec m < d0 sts m :=
        Nat.lt_of_le_of_ne (hhitsLe m) hold
      constructor
      · intro h
        rcases h with h | h
        · rcases List.mem_append.mp h with h | h
          · exact absurd h hmex
          · exact absurd (List.mem_singleton.mp h) hmx
        · rcases h with h | h
          · exact absurd (List.mem_of_mem_erase h) hmq
          · rw [hinv.degEq m] at h
            omega
      · intro h
        refine Or.inr (Or.inr ?_)
        rw [hinv.degEq m]
        omega
  · -- topo
    intro i hi p hp hfeeds
    replace hi : i < (ks.exec ++ [x]).length := hi
    replace hfeeds : feeds sts p ((ks.exec ++ [x]).getD i "") := hfeeds
    show p ∈ (ks.exec ++ [x]).take i
    rw [List.length_append, List.length_singleton] at hi
    by_cases hilt : i < ks.exec.length
    · rw [List.getD_append _ _ _ i hilt] at hfeeds
      rw [List.take_append_of_le_length (Nat.le_of_lt hilt)]
      exact hinv.topo i hilt p hp hfeeds
    · have hieq : i = ks.exec.length := by omega
      subst hieq
      rw [show (ks.exec ++ [x]).getD ks.exec.length "" = x by simp]
        at hfeeds
      rw [List.take_append_of_le_length (Nat.le_refl _), List.take_length]
      obtain ⟨q, hqin, hql⟩ := hfeeds
      exact producers_mem_of_drained sts hkeys huniq ks.exec
        hinv.execNodup hinv.execMem x hdrx q hqin p hp hql

theorem kahnLoop_inv (sts : List (String × ComputeModuleState))
    (oracle : Nat → List String → List String)
    (hkeys : (names sts).Nodup)
    (huniq : (sts.flatMap (fun p => outLocHashes p.2)).Nodup)
    (hsize : ∀ m, d0 sts m < u64) :
    ∀ fuel stepIdx ks, KInv sts ks →
      KInv sts (kahnLoop sts oracle fuel stepIdx ks) := by
  intro fuel
  induction fuel with
  | zero => intro stepIdx ks h; exact h
  | succ f ih =>
      intro stepIdx ks h
      rw [show kahnLoop sts oracle (f + 1) stepIdx ks =
        (match kahnStep sts oracle stepIdx ks with
         | Option.none => ks
         | some ks1 => kahnLoop sts oracle f (stepIdx + 1) ks1) from rfl]
      cases hstep : kahnStep sts oracle stepIdx ks with
      | none => exact h
      | some ks1 =>
          exact ih (stepIdx + 1) ks1
            (kahnStep_preserves sts oracle stepIdx ks ks1 hkeys huniq hsize
              h hstep)

theorem alookup_mem (sts : List (String × ComputeModuleState)) (n : String)
    (st : ComputeModuleState) (h : alookup sts n = some st) :
    (n, st) ∈ sts := by
  induction sts with
  | nil => simp [alookup] at h
  | cons p rest ih =>
      obtain ⟨a, b⟩ := p
      by_cases hp : a = n
      · simp only [alookup, if_pos hp, Option.some_inj] at h
        subst hp
        subst h
        exact List.mem_cons_self _ _
      · simp only [alookup, if_neg hp] at h
        exact List.mem_cons_of_mem _ (ih h)

theorem seedState_inv (sts : List (String × ComputeModuleState))
    (hkeys : (names sts).Nodup) : KInv sts (seedState sts) := by
  have hqsub : ((sts.filter
      (fun p => decide (p.2.activeInputs.length = 0))).map
        Prod.fst).Sublist (names sts) :=
    List.Sublist.map Prod.fst (List.filter_sublist sts)
  refine ⟨List.nodup_nil, ?_, ?_, ?_, ?_, ?_, ?_, ?_⟩
  · exact List.Nodup.sublist hqsub hkeys
  · intro y hy
    cases hy
  · intro y hy
    cases hy
  · intro y hy
    exact hqsub.subset hy
  · intro m
    show d0 sts m = d0 sts m - sumHits sts [] m
    rw [show sumHits sts [] m = 0 from rfl]
    omega
  · intro m hm
    show (m ∈ ([] : List String) ∨
        m ∈ (sts.filter (fun p =>
          decide (p.2.activeInputs.length = 0))).map Prod.fst) ↔
      sumHits sts [] m = d0 sts m
    rw [show sumHits sts [] m = 0 from rfl]
    constructor
    · intro h
      rcases h with h | h
      · cases h
      · obtain ⟨p, hpf, hpm⟩ := List.mem_map.mp h
        rw [List.mem_filter] at hpf
        have hst := stateOf_eq_of_mem sts p hkeys hpf.1
        unfold d0
        rw [← hpm, hst]
        exact (of_decide_eq_true hpf.2).symm
    · intro h
      obtain ⟨st, hst⟩ := alookup_isSome_of_mem_names sts m hm
      have hmem := alookup_mem sts m st hst
      refine Or.inr (List.mem_map.mpr ⟨(m, st), ?_, rfl⟩)
      rw [List.mem_filter]
      refine ⟨hmem, ?_⟩
      unfold d0 at h
      rw [show stateOf sts m = st by unfold stateOf; rw [hst]; rfl] at h
      simp [← h]
  · intro i hi
    replace hi : i < ([] : List String).length := hi
    cases hi

theorem perm_of_nodup_subset_length (l1 l2 : List String)
    (h1 : l1.Nodup) (h2 : l2.Nodup) (hs : ∀ x ∈ l1, x ∈ l2)
    (hl : l1.length = l2.length) : l1.Perm l2 := by
  refine List.perm_of_nodup_nodup_toFinset_eq h1 h2 ?_
  refine Finset.eq_of_subset_of_card_le ?_ ?_
  · intro x hx
    rw [List.mem_toFinset] at hx
    rw [List.mem_toFinset]
    exact hs x hx
  · rw [List.toFinset_card_of_nodup h1, List.toFinset_card_of_nodup h2, hl]

theorem indexOf_lt_of_mem_take (l : List String) (p : String) (i : Nat)
    (h : p ∈ l.take i) : l.indexOf p < i := by
  induction l generalizing i with
  | nil => rw [List.take_nil] at h; cases h
  | cons a rest ih =>
      cases i with
      | zero => rw [List.take_zero] at h; cases h
      | succ j =>
          rw [List.take_succ_cons] at h
          by_cases hpa : p = a
          · subst hpa
            rw [List.indexOf_cons_self]
            omega
          · rcases List.mem_cons.mp h with h | h
            · exact absurd h hpa
            · rw [List.indexOf_cons_ne rest (fun he => hpa he.symm)]
              have := ih j h
              omega

theorem d0_lt_of_entries (sts : List (String × ComputeModuleState))
    (h : ∀ p ∈ sts, p.2.activeInputs.length < u64) :
    ∀ m, d0 sts m < u64 := by
  intro m
  unfold d0 stateOf
  cases hl : alookup sts m with
  | none =>
      show defCMS.activeInputs.length < u64
      decide
  | some st =>
      show st.activeInputs.length < u64
      exact h (m, st) (alookup_mem sts m st hl)

/-- Topological soundness, claim C1.  For every run of the primitive
ordering loop — over every iteration order of the ready set, hence every
device-affinity choice — that ends successfully (the emitted order has as
many modules as the valid map), under the data-model well-formedness that
module names are unique, active-output locale hashes have at most one
producer, and degree counters fit in 64 bits: the execution order is a
permutation of the valid modules (each exactly once), and for every module
and every active input of it, the module producing that input's
locale hash appears strictly earlier in the execution order. -/
theorem arrange_topological_soundness
    (sts : List (String × ComputeModuleState))
    (oracle : Nat → List String → List String)
    (hkeys : (names sts).Nodup)
    (huniq : (sts.flatMap (fun p => outLocHashes p.2)).Nodup)
    (hsize : ∀ m, d0 sts m < u64)
    (hsucc : (runKahn sts oracle).exec.length = sts.length) :
    (runKahn sts oracle).exec.Perm (names sts) ∧
    ∀ m st, (m, st) ∈ sts → ∀ q ∈ st.activeInputs,
      ∀ p pst, (p, pst) ∈ sts → q.2.localeHash ∈ outLocHashes pst →
        (runKahn sts oracle).exec.indexOf p <
          (runKahn sts oracle).exec.indexOf m := by
  have hinv : KInv sts (runKahn sts oracle) :=
    kahnLoop_inv sts oracle hkeys huniq hsize _ _ _ (seedState_inv sts hkeys)
  have hperm : (runKahn sts oracle).exec.Perm (names sts) := by
    refine perm_of_nodup_subset_length _ _ hinv.execNodup hkeys
      hinv.execMem ?_
    rw [hsucc]
    unfold names
    rw [List.length_map]
  refine ⟨hperm, ?_⟩
  intro m st hmst q hq p pst hppst hql
  have hmmem : m ∈ (runKahn sts oracle).exec :=
    hperm.mem_iff.mpr (List.mem_map_of_mem Prod.fst hmst)
  have hi : (runKahn sts oracle).exec.indexOf m <
      (runKahn sts oracle).exec.length :=
    List.indexOf_lt_length.mpr hmmem
  have hget : (runKahn sts oracle).exec.getD
      ((runKahn sts oracle).exec.indexOf m) "" = m := by
    rw [List.getD_eq_getElem _ _ hi]
    exact List.indexOf_get hi
  have hfeeds : feeds sts p m := by
    refine ⟨q, ?_, ?_⟩
    · rw [show stateOf sts m = st from
        stateOf_eq_of_mem sts (m, st) hkeys hmst]
      exact hq
    · rw [show stateOf sts p = pst from
        stateOf_eq_of_mem sts (p, pst) hkeys hppst]
      exact hql
  have htake := hinv.topo ((runKahn sts oracle).exec.indexOf m) hi p
    (List.mem_map_of_mem Prod.fst hppst) (by rw [hget]; exact hfeeds)
  exact indexOf_lt_of_mem_take _ p _ htake

/-- Witness for claim C1 on the concrete two-module chain. -/
theorem arrange_topological_soundness_witness :
    ((names chainSts).Nodup ∧
     (chainSts.flatMap (fun p => outLocHashes p.2)).Nodup ∧
     (∀ p ∈ chainSts, p.2.activeInputs.length < u64) ∧
     (runKahn chainSts idOracle).exec.length = chainSts.length) ∧
    ((runKahn chainSts idOracle).exec.Perm (names chainSts) ∧
     ∀ m st, (m, st) ∈ chainSts → ∀ q ∈ st.activeInputs,
       ∀ p pst, (p, pst) ∈ chainSts → q.2.localeHash ∈ outLocHashes pst →
         (runKahn chainSts idOracle).exec.indexOf p <
           (runKahn chainSts idOracle).exec.indexOf m) :=
  ⟨⟨by decide, by decide, by decide, by decide⟩,
    arrange_topological_soundness chainSts idOracle (by decide) (by decide)
      (d0_lt_of_entries chainSts (by decide)) (by decide)⟩

/-! ## Claim C2 — cycle detection and the state left by a failed rebuild -/

theorem feedsChain_iff_feedsChainB (sts : List (String × ComputeModuleState)) :
    ∀ l, feedsChain sts l ↔ feedsChainB sts l = true := by
  intro l
  match l with
  | [] => simp [feedsChain, feedsChainB]
  | [a] => simp [feedsChain, feedsChainB]
  | a :: b :: rest =>
      rw [show feedsChain sts (a :: b :: rest) =
        (feeds sts a b ∧ feedsChain sts (b :: rest)) from rfl]
      rw [show feedsChainB sts (a :: b :: rest) =
        (decide (feeds sts a b) && feedsChainB sts (b :: rest)) from rfl]
      rw [Bool.and_eq_true, decide_eq_true_iff,
        ← feedsChain_iff_feedsChainB sts (b :: rest)]

instance feedsChainDecidable (sts : List (String × ComputeModuleState))
    (l : List String) : Decidable (feedsChain sts l) :=
  decidable_of_iff _ (feedsChain_iff_feedsChainB sts l).symm

theorem kahn_feeds_lt (sts : List (String × ComputeModuleState))
    (oracle : Nat → List String → List String)
    (hkeys : (names sts).Nodup)
    (huniq : (sts.flatMap (fun p => outLocHashes p.2)).Nodup)
    (hsize : ∀ m, d0 sts m < u64)
    (hsucc : (runKahn sts oracle).exec.length = sts.length)
    (p m : String) (hp : p ∈ names sts) (hm : m ∈ names sts)
    (hf : feeds sts p m) :
    (runKahn sts oracle).exec.indexOf p <
      (runKahn sts oracle).exec.indexOf m := by
  have hinv : KInv sts (runKahn sts oracle) :=
    kahnLoop_inv sts oracle hkeys huniq hsize _ _ _ (seedState_inv sts hkeys)
  have hperm : (runKahn sts oracle).exec.Perm (names sts) := by
    refine perm_of_nodup_subset_length _ _ hinv.execNodup hkeys
      hinv.execMem ?_
    rw [hsucc]
    unfold names
    rw [List.length_map]
  have hmmem : m ∈ (runKahn sts oracle).exec := hperm.mem_iff.mpr hm
  have hi : (runKahn sts oracle).exec.indexOf m <
      (runKahn sts oracle).exec.length :=
    List.indexOf_lt_length.mpr hmmem
  have hget : (runKahn sts oracle).exec.getD
      ((runKahn sts oracle).exec.indexOf m) "" = m := by
    rw [List.getD_eq_getElem _ _ hi]
    exact List.indexOf_get hi
  have htake := hinv.topo ((runKahn sts oracle).exec.indexOf m) hi p hp
    (by rw [hget]; exact hf)
  exact indexOf_lt_of_mem_take _ p _ htake

theorem feedsChain_indexOf_le (sts : List (String × ComputeModuleState))
    (oracle : Nat → List String → List String)
    (hkeys : (names sts).Nodup)
    (huniq : (sts.flatMap (fun p => outLocHashes p.2)).Nodup)
    (hsize : ∀ m, d0 sts m < u64)
    (hsucc : (runKahn sts oracle).exec.length = sts.length) :
    ∀ (crest : List String) (c0 : String),
      feedsChain sts (c0 :: crest) →
      (∀ n ∈ c0 :: crest, n ∈ names sts) →
      (runKahn sts oracle).exec.indexOf c0 ≤
        (runKahn sts oracle).exec.indexOf
          ((c0 :: crest).getLast (List.cons_ne_nil c0 crest)) := by
  intro crest
  induction crest with
  | nil =>
      intro c0 _ _
      rw [List.getLast_singleton]
  | cons c1 crest' ih =>
      intro c0 hch hmem
      obtain ⟨hf01, hch'⟩ := hch
      have h1 := kahn_feeds_lt sts oracle hkeys huniq hsize hsucc c0 c1
        (hmem c0 (List.mem_cons_self _ _))
        (hmem c1 (List.mem_cons_of_mem _ (List.mem_cons_self _ _))) hf01
      have h2 := ih c1 hch' (fun n hn => hmem n (List.mem_cons_of_mem _ hn))
      rw [List.getLast_cons (List.cons_ne_nil c1 crest')]
      omega

theorem runKahn_cycle_no_success (sts : List (String × ComputeModuleState))
    (oracle : Nat → List String → List String)
    (hkeys : (names sts).Nodup)
    (huniq : (sts.flatMap (fun p => outLocHashes p.2)).Nodup)
    (hsize : ∀ m, d0 sts m < u64)
    (hcyc : hasCycle sts) :
    (runKahn sts oracle).exec.length ≠ sts.length := by
  intro hsucc
  obtain ⟨c0, crest, hch, hmem, hlast⟩ := hcyc
  have hle := feedsChain_indexOf_le sts oracle hkeys huniq hsize hsucc
    crest c0 hch hmem
  have hlt := kahn_feeds_lt sts oracle hkeys huniq hsize hsucc _ c0
    (hmem _ (List.getLast_mem _)) (hmem c0 (List.mem_cons_self _ _)) hlast
  omega

theorem rebuild_fail_shape (oracle : Nat → List String → List String)
    (t : SchedulerState)
    (hns : (runKahn (removeInactive t).validComputeModuleStates
        oracle).exec.length ≠
      (removeInactive t).validComputeModuleStates.length) :
    rebuild oracle t =
      ({ removeInactive t with
          executionOrder := (runKahn
            (removeInactive t).validComputeModuleStates oracle).exec,
          deviceExecutionOrder := [] }, Result.FATAL) := by
  have harr : arrangeDependencyOrder oracle (removeInactive t) =
      ({ removeInactive t with
          executionOrder := (runKahn
            (removeInactive t).validComputeModuleStates oracle).exec,
          deviceExecutionOrder := [] }, Result.FATAL) := by
    unfold arrangeDependencyOrder
    rw [if_pos hns]
  unfold rebuild
  rw [harr]
  rfl

theorem addModulePre_graphs (s : SchedulerState) (name : String)
    (mio : ModuleIO) :
    (addModulePre s name mio).graphs = (destroyGraphs s).graphs := by
  unfold addModulePre
  cases mio.hasPresent <;> cases mio.hasCompute <;> rfl

theorem removeInactive_graphs (t : SchedulerState) :
    (removeInactive t).graphs = t.graphs := rfl

/-- Cycle detection, claim C2 as amended.  When the valid module graph
after registration and pruning contains a dependency cycle (under the
data-model well-formedness used throughout), addModule detects it as an
execution-order length mismatch against the valid module map and returns
the FATAL rebuild error; createExecutionGraphs is never reached, so no new
executors exist: the graphs list still holds the previously destroyed
executors (it is not emptied), and deviceExecutionOrder is left clear. -/
theorem addModule_cycle_detection (oracle : Nat → List String → List String)
    (s : SchedulerState) (name : String) (mio : ModuleIO)
    (hkeys : (names (removeInactive
      (addModulePre s name mio)).validComputeModuleStates).Nodup)
    (huniq : ((removeInactive
      (addModulePre s name mio)).validComputeModuleStates.flatMap
        (fun p => outLocHashes p.2)).Nodup)
    (hsize : ∀ m, d0 (removeInactive
      (addModulePre s name mio)).validComputeModuleStates m < u64)
    (hcyc : hasCycle (removeInactive
      (addModulePre s name mio)).validComputeModuleStates) :
    (addModule oracle s name mio).2 = Result.FATAL ∧
    (addModule oracle s name mio).1.executionOrder.length ≠
      (removeInactive (addModulePre s name mio)).validComputeModuleStates.length ∧
    (addModule oracle s name mio).1.graphs = (destroyGraphs s).graphs ∧
    (addModule oracle s name mio).1.deviceExecutionOrder = [] := by
  have hns := runKahn_cycle_no_success _ oracle hkeys huniq hsize hcyc
  have hsh := rebuild_fail_shape oracle (addModulePre s name mio) hns
  have hadd : addModule oracle s name mio =
      rebuild oracle (addModulePre s name mio) := rfl
  rw [hadd, hsh]
  refine ⟨rfl, ?_, ?_, rfl⟩
  · exact hns
  · show (removeInactive (addModulePre s name mio)).graphs =
      (destroyGraphs s).graphs
    rw [removeInactive_graphs, addModulePre_graphs]

/-- Witness for claim C2 (amended) on the concrete c-d cycle. -/
theorem addModule_cycle_detection_witness :
    ((names (removeInactive
        (addModulePre schedABC "d" ioD)).validComputeModuleStates).Nodup ∧
      ((removeInactive
        (addModulePre schedABC "d" ioD)).validComputeModuleStates.flatMap
          (fun p => outLocHashes p.2)).Nodup ∧
      hasCycle (removeInactive
        (addModulePre schedABC "d" ioD)).validComputeModuleStates) ∧
    ((addModule idOracle schedABC "d" ioD).2 = Result.FATAL ∧
     (addModule idOracle schedABC "d" ioD).1.executionOrder.length ≠
       (removeInactive
         (addModulePre schedABC "d" ioD)).validComputeModuleStates.length ∧
     (addModule idOracle schedABC "d" ioD).1.graphs =
       (destroyGraphs schedABC).graphs ∧
     (addModule idOracle schedABC "d" ioD).1.deviceExecutionOrder = []) :=
  ⟨⟨by decide, by decide,
     ⟨"c", ["d"], by decide, by decide, by decide⟩⟩,
    addModule_cycle_detection idOracle schedABC "d" ioD (by decide)
      (by decide) (d0_lt_of_entries _ (by decide))
      ⟨"c", ["d"], by decide, by decide, by decide⟩⟩

/-- Counterexample to claim C2 as stated: adding the module that closes
the c-d cycle to a scheduler that already carries one live executor
returns the cycle error, yet the graphs list is not empty afterwards — it
still holds the (destroyed) previous executor, because the rebuild aborts
before createExecutionGraphs, the only place that clears the list. -/
theorem c2_counterexample :
    (addModule idOracle schedABC "d" ioD).2 = Result.FATAL ∧
    (addModule idOracle schedABC "d" ioD).1.graphs ≠ [] := by
  decide

/-! ## Claim C9 — addModule mutates first and never rolls back -/

theorem arrange_preserves (oracle : Nat → List String → List String)
    (u : SchedulerState) :
    (arrangeDependencyOrder oracle u).1.running = u.running ∧
    (arrangeDependencyOrder oracle u).1.computeModuleStates =
      u.computeModuleStates ∧
    (arrangeDependencyOrder oracle u).1.presentModuleStates =
      u.presentModuleStates := by
  unfold arrangeDependencyOrder
  split
  · exact ⟨rfl, rfl, rfl⟩
  · exact ⟨rfl, rfl, rfl⟩

theorem rebuild_preserves (oracle : Nat → List String → List String)
    (t : SchedulerState) :
    (rebuild oracle t).1.running = t.running ∧
    (rebuild oracle t).1.computeModuleStates = activatedCMS t ∧
    (rebuild oracle t).1.presentModuleStates = t.presentModuleStates := by
  unfold rebuild
  rcases harr : arrangeDependencyOrder oracle (removeInactive t) with ⟨s2, r⟩
  have hpre := arrange_preserves oracle (removeInactive t)
  rw [harr] at hpre
  have hrun : s2.running = t.running := hpre.1
  have hcms : s2.computeModuleStates = activatedCMS t := hpre.2.1
  have hpms : s2.presentModuleStates = t.presentModuleStates := hpre.2.2
  show (if r ≠ Result.SUCCESS then (s2, r)
      else if checkSequenceValidity s2 ≠ Result.SUCCESS then
        (s2, checkSequenceValidity s2)
      else (createGraphs (createExecutionGraphs s2),
        Result.SUCCESS)).1.running = t.running ∧
    (if r ≠ Result.SUCCESS then (s2, r)
      else if checkSequenceValidity s2 ≠ Result.SUCCESS then
        (s2, checkSequenceValidity s2)
      else (createGraphs (createExecutionGraphs s2),
        Result.SUCCESS)).1.computeModuleStates = activatedCMS t ∧
    (if r ≠ Result.SUCCESS then (s2, r)
      else if checkSequenceValidity s2 ≠ Result.SUCCESS then
        (s2, checkSequenceValidity s2)
      else (createGraphs (createExecutionGraphs s2),
        Result.SUCCESS)).1.presentModuleStates = t.presentModuleStates
  by_cases hr : r ≠ Result.SUCCESS
  · rw [if_pos hr]
    exact ⟨hrun, hcms, hpms⟩
  · rw [if_neg hr]
    rw [if_neg (show ¬checkSequenceValidity s2 ≠ Result.SUCCESS
      from fun h => h rfl)]
    exact ⟨hrun, hcms, hpms⟩

theorem alookup_map_keys {β : Type}
    (f : (String × β) → (String × β)) (l : List (String × β)) (n : String)
    (hf : ∀ p, (f p).1 = p.1) :
    (alookup (l.map f) n).isSome = (alookup l n).isSome := by
  induction l with
  | nil => rfl
  | cons p rest ih =>
      rw [List.map_cons]
      by_cases hp : p.1 = n
      · rw [show alookup (f p :: rest.map f) n = some (f p).2 by
          simp [alookup, hf p, hp]]
        rw [show alookup (p :: rest) n = some p.2 by simp [alookup, hp]]
        rfl
      · rw [show alookup (f p :: rest.map f) n = alookup (rest.map f) n by
          simp [alookup, hf p, hp]]
        rw [show alookup (p :: rest) n = alookup rest n by
          simp [alookup, hp]]
        exact ih

theorem addModulePre_running (s : SchedulerState) (name : String)
    (mio : ModuleIO) : (addModulePre s name mio).running = true := by
  unfold addModulePre
  cases mio.hasPresent <;> cases mio.hasCompute <;> rfl

theorem addModulePre_compute_key (s : SchedulerState) (name : String)
    (mio : ModuleIO) (hc : mio.hasCompute = true) :
    (alookup (addModulePre s name mio).computeModuleStates name).isSome =
      true := by
  unfold addModulePre
  cases hP : mio.hasPresent <;>
    simp [hP, hc, alookup_aInsert_self]

theorem addModulePre_present_key (s : SchedulerState) (name : String)
    (mio : ModuleIO) (hp : mio.hasPresent = true) :
    (alookup (addModulePre s name mio).presentModuleStates name).isSome =
      true := by
  unfold addModulePre
  cases hc : mio.hasCompute <;>
    simp [hp, hc, alookup_aInsert_self]

/-- No rollback, claim C9: addModule raises the running flag and writes
the module's entries into the state maps before any rebuild phase, and a
failed rebuild undoes none of it — afterwards the scheduler is still
running (so a subsequent removeModule takes the full-rebuild path instead
of the not-running early return) and the failing module's entries are
still registered. -/
theorem addModule_no_rollback (oracle : Nat → List String → List String)
    (s : SchedulerState) (name : String) (mio : ModuleIO)
    (hfail : (addModule oracle s name mio).2 ≠ Result.SUCCESS) :
    (addModule oracle s name mio).1.running = true ∧
    (mio.hasCompute = true →
      (alookup (addModule oracle s name mio).1.computeModuleStates
        name).isSome = true) ∧
    (mio.hasPresent = true →
      (alookup (addModule oracle s name mio).1.presentModuleStates
        name).isSome = true) ∧
    (∀ loc, removeModule oracle (addModule oracle s name mio).1 loc =
      removeModuleBody oracle (addModule oracle s name mio).1 loc) := by
  have hpre := rebuild_preserves oracle (addModulePre s name mio)
  have hadd : addModule oracle s name mio =
      rebuild oracle (addModulePre s name mio) := rfl
  have hrun : (addModule oracle s name mio).1.running = true := by
    rw [hadd, hpre.1, addModulePre_running]
  refine ⟨hrun, ?_, ?_, ?_⟩
  · intro hc
    rw [hadd, hpre.2.1]
    unfold activatedCMS
    rw [alookup_map_keys
      (activateModule (addModulePre s name mio).computeModuleStates)
      (addModulePre s name mio).computeModuleStates name (fun p => rfl)]
    exact addModulePre_compute_key s name mio hc
  · intro hp
    rw [hadd, hpre.2.2]
    exact addModulePre_present_key s name mio hp
  · intro loc
    unfold removeModule
    rw [hrun]
    exact if_pos rfl

/-- Witness for claim C9 on the concrete failing (cycle-closing)
addModule. -/
theorem addModule_no_rollback_witness :
    (addModule idOracle schedABC "d" ioD).2 ≠ Result.SUCCESS ∧
    ((addModule idOracle schedABC "d" ioD).1.running = true ∧
     (ioD.hasCompute = true →
       (alookup (addModule idOracle schedABC "d" ioD).1.computeModuleStates
         "d").isSome = true) ∧
     (ioD.hasPresent = true →
       (alookup (addModule idOracle schedABC "d" ioD).1.presentModuleStates
         "d").isSome = true) ∧
     (∀ loc, removeModule idOracle (addModule idOracle schedABC "d" ioD).1
         loc =
       removeModuleBody idOracle (addModule idOracle schedABC "d" ioD).1
         loc)) :=
  ⟨by decide, addModule_no_rollback idOracle schedABC "d" ioD (by decide)⟩

end Jetstream
